import Mathlib

/-!
Verification of the recipe-JSON response validator and metrics aggregator of
the wandb-service repository.

The validator (`validate_json` in `src/main.py`) is embedded as a pure
function from the request content (a sequence of code points, `List Char`)
to a structured outcome.  The `json.loads` / `json.dumps(indent=2)` calls of
the standard library that the validator relies on are embedded as an
executable JSON parser (`loads`) and serializer (`serValue`) that follow
CPython's `json` module:

* JSON numbers are modelled as integers only; contents using fractional or
  exponent notation (or `NaN` / `Infinity`) make the embedded parser fail
  where CPython would produce floats.  This only narrows the set of inputs
  the parse-dependent hypotheses below range over; no claim depends on
  float values.
* Lone surrogate `\uXXXX` escapes are rejected by the embedded parser
  (CPython keeps them as unpaired surrogate code points, which `Char`
  cannot represent).
* JSON objects are modelled as key/value lists in source order; CPython
  builds a `dict` (so a duplicate key would be collapsed).  Key membership,
  the only object operation the validator performs, is unaffected.
* The message attached to a `json.JSONDecodeError` (line/column detail) is
  not modelled; the validator only wraps it into a `ValueError` string that
  no claim inspects.

The aggregation helper (`update_visualizations` in
`src/wandb_visualizations.py`) is embedded as a pure function from a batch
of outcome records to the metrics payload it would log; the `wandb` chart
calls are side effects outside the computation.  The pandas `value_counts`
ordering (descending count) is not modelled: the error histogram is built
in first-appearance order and all statements about it are order-insensitive.
-/

/-! ## Python `str.strip` -/

/-- Code points for which CPython's `str.isspace` is true (the characters
`str.strip()` removes). -/
def pyIsSpace (c : Char) : Bool :=
  (0x09 ≤ c.toNat && c.toNat ≤ 0x0d) || c = ' ' ||
  (0x1c ≤ c.toNat && c.toNat ≤ 0x1f) || c.toNat = 0x85 || c.toNat = 0xa0 ||
  c.toNat = 0x1680 || (0x2000 ≤ c.toNat && c.toNat ≤ 0x200a) ||
  c.toNat = 0x2028 || c.toNat = 0x2029 || c.toNat = 0x202f ||
  c.toNat = 0x205f || c.toNat = 0x3000

/-- Python `content.strip()`: remove leading and trailing whitespace. -/
def pyStrip (cs : List Char) : List Char :=
  ((cs.dropWhile pyIsSpace).reverse.dropWhile pyIsSpace).reverse

/-! ## JSON values -/

mutual

/-- JSON values as produced by `json.loads` (numbers restricted to
integers, see the header comment).  Arrays and objects carry their own
sequence types so that all recursion over values is structural. -/
inductive Json where
  | null : Json
  | bool (b : Bool) : Json
  | num (n : Int) : Json
  | str (s : List Char) : Json
  | arr (elems : JsonList) : Json
  | obj (fields : JsonPairs) : Json

/-- A sequence of JSON values (the elements of an array). -/
inductive JsonList where
  | nil : JsonList
  | cons (head : Json) (tail : JsonList) : JsonList

/-- A sequence of key/value entries (the fields of an object, in source
order). -/
inductive JsonPairs where
  | nil : JsonPairs
  | cons (key : List Char) (val : Json) (tail : JsonPairs) : JsonPairs

end

/-- Number of elements of a JSON array. -/
def JsonList.length : JsonList → Nat
  | .nil => 0
  | .cons _ t => t.length + 1

/-- Does the object have an entry with the given key?  (Python
`key in dict`.) -/
def JsonPairs.hasKey (key : List Char) : JsonPairs → Bool
  | .nil => false
  | .cons k _ t => k = key || t.hasKey key

/-! ## Serializer: `json.dumps(data, indent=2)` -/

/-- Decimal digit character. -/
def digitChar (n : Nat) : Char := Char.ofNat (48 + n)

/-- Fueled digit accumulator for `natDigits`; the fuel only bounds the
recursion depth and `natDigits` always passes enough. -/
def natDigitsAux : Nat → Nat → List Char → List Char
  | 0, _, acc => acc
  | fuel + 1, n, acc =>
    if n < 10 then digitChar n :: acc
    else natDigitsAux fuel (n / 10) (digitChar (n % 10) :: acc)

/-- Decimal digits of a natural number, most significant first
(CPython `str` of a non-negative `int`). -/
def natDigits (n : Nat) : List Char := natDigitsAux (n + 1) n []

/-- CPython `str` of an `int`. -/
def serInt (n : Int) : List Char :=
  if n < 0 then '-' :: natDigits (-n).toNat else natDigits n.toNat

/-- Lowercase hexadecimal digit character, as used by
`json.encoder.py_encode_basestring_ascii`. -/
def hexChar (n : Nat) : Char :=
  if n < 10 then Char.ofNat (48 + n) else Char.ofNat (87 + n)

/-- Four lowercase hex digits of `n % 0x10000`. -/
def hex4 (n : Nat) : List Char :=
  [hexChar (n / 4096 % 16), hexChar (n / 256 % 16), hexChar (n / 16 % 16), hexChar (n % 16)]

/-- Escape one character as `json.dumps` does with the default
`ensure_ascii=True` (short escapes for the five special controls, `\uXXXX`
otherwise outside printable ASCII, surrogate pairs above `0xFFFF`). -/
def escChar (c : Char) : List Char :=
  if c = '"' then ['\\', '"']
  else if c = '\\' then ['\\', '\\']
  else if c = '\n' then ['\\', 'n']
  else if c = '\r' then ['\\', 'r']
  else if c = '\t' then ['\\', 't']
  else if c = '\x08' then ['\\', 'b']
  else if c = '\x0c' then ['\\', 'f']
  else if 0x20 ≤ c.toNat ∧ c.toNat ≤ 0x7e then [c]
  else if c.toNat < 0x10000 then '\\' :: 'u' :: hex4 c.toNat
  else
    '\\' :: 'u' :: hex4 (0xd800 + (c.toNat - 0x10000) / 0x400) ++
      '\\' :: 'u' :: hex4 (0xdc00 + (c.toNat - 0x10000) % 0x400)

/-- Escaped body of a JSON string literal. -/
def escBody : List Char → List Char
  | [] => []
  | c :: cs => escChar c ++ escBody cs

/-- A serialized JSON string literal. -/
def serStr (s : List Char) : List Char := '"' :: (escBody s ++ ['"'])

/-- Indentation prefix at nesting level `lvl` for `indent=2`. -/
def indentChars (lvl : Nat) : List Char := List.replicate (2 * lvl) ' '

mutual

/-- `json.dumps(v, indent=2)` at nesting level `lvl`. -/
def serValue (lvl : Nat) : Json → List Char
  | .null => "null".toList
  | .bool true => "true".toList
  | .bool false => "false".toList
  | .num n => serInt n
  | .str s => serStr s
  | .arr .nil => ['[', ']']
  | .arr (.cons x xs) =>
      '[' :: '\n' :: (serItems (lvl + 1) (.cons x xs) ++ '\n' :: (indentChars lvl ++ [']']))
  | .obj .nil => ['{', '}']
  | .obj (.cons k v ps) =>
      '{' :: '\n' :: (serPairs (lvl + 1) (.cons k v ps) ++ '\n' :: (indentChars lvl ++ ['}']))

/-- Comma-and-newline separated, indented array items. -/
def serItems (lvl : Nat) : JsonList → List Char
  | .nil => []
  | .cons x .nil => indentChars lvl ++ serValue lvl x
  | .cons x (.cons y ys) =>
      indentChars lvl ++ serValue lvl x ++ ',' :: '\n' :: serItems lvl (.cons y ys)

/-- Comma-and-newline separated, indented object entries (`"key": value`). -/
def serPairs (lvl : Nat) : JsonPairs → List Char
  | .nil => []
  | .cons k v .nil => indentChars lvl ++ serStr k ++ ':' :: ' ' :: serValue lvl v
  | .cons k v (.cons k2 v2 qs) =>
      indentChars lvl ++ serStr k ++ ':' :: ' ' :: serValue lvl v ++
        ',' :: '\n' :: serPairs lvl (.cons k2 v2 qs)

end

/-! ## Parser: `json.loads` -/

/-- An ASCII decimal digit (the `\d` of the C scanner's number syntax). -/
def isDigitCh (c : Char) : Bool := 48 ≤ c.toNat && c.toNat ≤ 57

/-- JSON whitespace (`json.decoder.WHITESPACE_STR`). -/
def isJsonWs (c : Char) : Bool := c = ' ' || c = '\t' || c = '\n' || c = '\r'

/-- Skip JSON whitespace. -/
def skipWs (cs : List Char) : List Char := cs.dropWhile isJsonWs

/-- Value of one hexadecimal digit. -/
def hexDigitVal (c : Char) : Option Nat :=
  if 48 ≤ c.toNat ∧ c.toNat ≤ 57 then some (c.toNat - 48)
  else if 97 ≤ c.toNat ∧ c.toNat ≤ 102 then some (c.toNat - 87)
  else if 65 ≤ c.toNat ∧ c.toNat ≤ 70 then some (c.toNat - 55)
  else none

/-- Value of a 4-digit hex escape payload. -/
def hex4Val (a b c d : Char) : Option Nat :=
  match hexDigitVal a, hexDigitVal b, hexDigitVal c, hexDigitVal d with
  | some va, some vb, some vc, some vd => some (((va * 16 + vb) * 16 + vc) * 16 + vd)
  | _, _, _, _ => none

/-- Value of a single-character escape (`json.decoder.BACKSLASH`). -/
def escVal (e : Char) : Char :=
  if e = 'b' then '\x08'
  else if e = 'f' then '\x0c'
  else if e = 'n' then '\n'
  else if e = 'r' then '\r'
  else if e = 't' then '\t'
  else e

/-- Is `e` one of the eight single-character escapes? -/
def isSimpleEsc (e : Char) : Bool :=
  e = '"' || e = '\\' || e = '/' || e = 'b' || e = 'f' || e = 'n' || e = 'r' || e = 't'

/-- Read four hex digits, returning their value and the remainder. -/
def take4hex : List Char → Option (Nat × List Char)
  | a :: b :: c :: d :: r =>
    match hex4Val a b c d with
    | some n => some (n, r)
    | none => none
  | _ => none

/-- Decode the low half of a surrogate pair (`\uXXXX` with a high
surrogate value `n` just read), producing the combined code point. -/
def decodeLow (n : Nat) : List Char → Option (Char × List Char)
  | s1 :: s2 :: r =>
    if s1 = '\\' ∧ s2 = 'u' then
      match take4hex r with
      | some (m, r2) =>
        if 0xdc00 ≤ m ∧ m < 0xe000 then
          some (Char.ofNat (0x10000 + (n - 0xd800) * 0x400 + (m - 0xdc00)), r2)
        else none
      | none => none
    else none
  | _ => none

/-- Decode a `\uXXXX` escape (with surrogate-pair combination; lone
surrogates rejected, see the header comment). -/
def decodeU (cs : List Char) : Option (Char × List Char) :=
  match take4hex cs with
  | some (n, r) =>
    if n < 0xd800 ∨ 0xe000 ≤ n then some (Char.ofNat n, r)
    else if n < 0xdc00 then decodeLow n r
    else none
  | none => none

/-- Decode the escape following a backslash. -/
def decodeEsc : List Char → Option (Char × List Char)
  | [] => none
  | e :: cs2 =>
    if isSimpleEsc e then some (escVal e, cs2)
    else if e = 'u' then decodeU cs2
    else none

/-- Decode one character of a JSON string body: a backslash escape or a
plain character at or above `0x20` (`strict=True` rejects raw controls). -/
def decodeOne : List Char → Option (Char × List Char)
  | [] => none
  | c :: cs1 =>
    if c = '\\' then decodeEsc cs1
    else if 0x20 ≤ c.toNat then some (c, cs1)
    else none

/-- Parse the body of a JSON string literal after the opening quote,
returning the decoded characters and the remainder after the closing quote
(`json.decoder.py_scanstring` with `strict=True`).  The fuel only bounds
the recursion depth; every call site passes more than the input length. -/
def parseStringBody : Nat → List Char → Option (List Char × List Char)
  | 0, _ => none
  | fuel + 1, cs =>
    match cs with
    | [] => none
    | c :: cs1 =>
      if c = '"' then some ([], cs1)
      else
        match decodeOne (c :: cs1) with
        | some (d, r) => (fun p => (d :: p.1, p.2)) <$> parseStringBody fuel r
        | none => none

/-- Numeric value of a list of decimal digit characters. -/
def digitsVal (ds : List Char) : Nat := ds.foldl (fun a c => a * 10 + (c.toNat - 48)) 0

/-- Reject the fractional/exponent continuations of `json.scanner.NUMBER_RE`
(floats are outside this model, see the header comment). -/
def checkNoFloat (n : Nat) (r : List Char) : Option (Nat × List Char) :=
  match r with
  | c :: _ => if c = '.' ∨ c = 'e' ∨ c = 'E' then none else some (n, r)
  | [] => some (n, r)

/-- Parse the integer part matched by `json.scanner.NUMBER_RE`:
`(0|[1-9]\d*)`, with no leading zeros. -/
def parseNumAux (cs : List Char) : Option (Nat × List Char) :=
  match cs with
  | [] => none
  | c :: rest =>
    if c = '0' then checkNoFloat 0 rest
    else if isDigitCh c then
      checkNoFloat (digitsVal (c :: rest.takeWhile isDigitCh))
        (rest.dropWhile isDigitCh)
    else none

/-- Parse a JSON number (an optional sign and integer part). -/
def parseNumber (cs : List Char) : Option (Int × List Char) :=
  match cs with
  | [] => none
  | c :: rest =>
    if c = '-' then (fun p => (-(p.1 : Int), p.2)) <$> parseNumAux rest
    else (fun p => ((p.1 : Int), p.2)) <$> parseNumAux (c :: rest)

/-- Recognize the tail `rue` of the literal `true`. -/
def parseTrue : List Char → Option (Json × List Char)
  | 'r' :: 'u' :: 'e' :: r => some (.bool true, r)
  | _ => none

/-- Recognize the tail `alse` of the literal `false`. -/
def parseFalse : List Char → Option (Json × List Char)
  | 'a' :: 'l' :: 's' :: 'e' :: r => some (.bool false, r)
  | _ => none

/-- Recognize the tail `ull` of the literal `null`. -/
def parseNull : List Char → Option (Json × List Char)
  | 'u' :: 'l' :: 'l' :: r => some (.null, r)
  | _ => none

mutual

/-- Parse one JSON value (`json.scanner.py_make_scanner`'s `scan_once`).
The fuel argument only bounds the recursion depth; `loads` passes more
than any input can consume. -/
def parseValue : Nat → List Char → Option (Json × List Char)
  | 0, _ => none
  | _ + 1, [] => none
  | fuel + 1, c :: rest =>
    if c = '{' then
      match skipWs rest with
      | '}' :: r2 => some (.obj .nil, r2)
      | r =>
        match parsePairs fuel r with
        | some (ps, r2) => some (.obj ps, r2)
        | none => none
    else if c = '[' then
      match skipWs rest with
      | ']' :: r2 => some (.arr .nil, r2)
      | r =>
        match parseItems fuel r with
        | some (l, r2) => some (.arr l, r2)
        | none => none
    else if c = '"' then (fun p => (Json.str p.1, p.2)) <$> parseStringBody (rest.length + 1) rest
    else if c = 't' then parseTrue rest
    else if c = 'f' then parseFalse rest
    else if c = 'n' then parseNull rest
    else if c = '-' ∨ isDigitCh c then
      (fun p => (Json.num p.1, p.2)) <$> parseNumber (c :: rest)
    else none

/-- Parse the items of a non-empty array up to and including the closing
bracket (`json.decoder.JSONArray`). -/
def parseItems : Nat → List Char → Option (JsonList × List Char)
  | 0, _ => none
  | fuel + 1, cs =>
    match parseValue fuel cs with
    | none => none
    | some (v, r) =>
      match skipWs r with
      | ']' :: r2 => some (.cons v .nil, r2)
      | ',' :: r2 =>
        match parseItems fuel (skipWs r2) with
        | some (vs, r3) => some (.cons v vs, r3)
        | none => none
      | _ => none

/-- Parse the entries of a non-empty object up to and including the closing
brace (`json.decoder.JSONObject`). -/
def parsePairs : Nat → List Char → Option (JsonPairs × List Char)
  | 0, _ => none
  | fuel + 1, cs =>
    match cs with
    | '"' :: rest =>
      match parseStringBody (rest.length + 1) rest with
      | none => none
      | some (k, r) =>
        match skipWs r with
        | ':' :: r2 =>
          match parseValue fuel (skipWs r2) with
          | none => none
          | some (v, r3) =>
            match skipWs r3 with
            | '}' :: r4 => some (.cons k v .nil, r4)
            | ',' :: r4 =>
              match parsePairs fuel (skipWs r4) with
              | some (ps, r5) => some (.cons k v ps, r5)
              | none => none
            | _ => none
        | _ => none
    | _ => none

end

/-- `json.loads`: parse a complete document, allowing surrounding JSON
whitespace and rejecting trailing data. -/
def loads (cs : List Char) : Option Json :=
  match parseValue (cs.length + 1) (skipWs cs) with
  | some (v, r) => if skipWs r = [] then some v else none
  | none => none

/-! ## The validator: `validate_json` (src/main.py) -/

/-- `normalize_json` (src/main.py:96): parse and re-serialize with 2-space
indentation; on parse failure return the content unchanged. -/
def normalize_json (cs : List Char) : List Char :=
  match loads cs with
  | some v => serValue 0 v
  | none => cs

/-- The content the validation checks run on
(`content = normalize_json(request.content.strip())`, src/main.py:112). -/
def normContent (content : List Char) : List Char := normalize_json (pyStrip content)

/-- `content.startswith('[') and content.endswith(']')` (src/main.py:122). -/
def arrayFormatOk (cs : List Char) : Bool :=
  cs.head? = some '[' && cs.getLast? = some ']'

/-- Is `needle` a contiguous subsequence of the haystack?  Models
`re.search` applied to the literal markdown patterns. -/
def containsSeq (needle : List Char) : List Char → Bool
  | [] => needle.isEmpty
  | c :: cs => needle.isPrefixOf (c :: cs) || containsSeq needle cs

/-- The two markdown fence patterns searched for (src/main.py:129). -/
def markdownHit (cs : List Char) : Bool :=
  containsSeq ['`', '`', '`', 'j', 's', 'o', 'n', '\n'] cs ||
  containsSeq ['`', '`', '`', '\n'] cs

/-- The eleven intro-text patterns (src/main.py:134), in priority order.
Each regex is `^`-anchored with no multiline flag, so `re.search` reduces
to a prefix test at the start of the content. -/
def introPats : List (List Char) :=
  [['H', 'e', 'r', 'e', '\x27', 's'],
   ['I', '\x27', 'l', 'l'],
   ['L', 'e', 't', ' ', 'm', 'e'],
   ['H', 'e', 'r', 'e', ' ', 'a', 'r', 'e'],
   ['T', 'h', 'e', ' ', 'r', 'e', 'c', 'i', 'p', 'e', 's'],
   ['B', 'a', 's', 'e', 'd', ' ', 'o', 'n'],
   ['H', 'e', 'r', 'e', ' ', 'i', 's'],
   ['I', '\x27', 'v', 'e'],
   ['I', ' ', 'h', 'a', 'v', 'e'],
   ['H', 'e', 'r', 'e'],
   ['I']]

/-- Does an intro-text pattern match the content? -/
def introHit (cs : List Char) : Bool := introPats.any (fun p => p.isPrefixOf cs)

/-- The required recipe fields, in specification order (src/main.py:179). -/
def requiredFields : List (List Char) :=
  ["name".toList, "prepTime".toList, "cookTime".toList,
   "totalTime".toList, "ingredients".toList, "steps".toList]

/-- Does the JSON array contain the given string as an element?  (Python
`str in list` tests elementwise equality, which can only hold at string
elements.) -/
def JsonList.hasStr (key : List Char) : JsonList → Bool
  | .nil => false
  | .cons v t => (match v with | .str s => s = key | _ => false) || t.hasStr key

/-- Python `field in container` for the JSON values a parsed element can
be: key membership for a mapping, substring for a string, element equality
for a list, and a `TypeError` for the non-iterable types. -/
def pyContains (container : Json) (key : List Char) : Except String Bool :=
  match container with
  | .obj ps => .ok (ps.hasKey key)
  | .str s => .ok (containsSeq key s)
  | .arr l => .ok (l.hasStr key)
  | .num _ => .error "argument of type \x27int\x27 is not iterable"
  | .bool _ => .error "argument of type \x27bool\x27 is not iterable"
  | .null => .error "argument of type \x27NoneType\x27 is not iterable"

/-- The list comprehension
`[field for field in required_fields if field not in first_recipe]`
(src/main.py:180), evaluated left to right, propagating a `TypeError`. -/
def missingAux (first : Json) : List (List Char) → Except String (List (List Char))
  | [] => .ok []
  | f :: fs =>
    match pyContains first f with
    | .error e => .error e
    | .ok true => missingAux first fs
    | .ok false =>
      match missingAux first fs with
      | .error e => .error e
      | .ok rest => .ok (f :: rest)

/-- The five named checkpoints (src/main.py:113). -/
structure Steps where
  array_format : Bool
  markdown_removed : Bool
  intro_text_removed : Bool
  json_parsed : Bool
  structure_validated : Bool

/-- The validation outcome payload assembled for `update_visualizations`
(src/main.py:193 on success, src/main.py:227 on failure).  The timing,
session and trace fields are request/clock data independent of the
validation logic and are not modelled. -/
structure Outcome where
  success : Bool
  steps : Steps
  content_length : Nat
  recipe_count : Option Nat
  error_type : Option String
  error_message : Option String

/-- Build the comma-joined missing-fields message
(`', '.join(missing_fields)`, src/main.py:184). -/
def joinFields (fs : List (List Char)) : String :=
  String.mk (List.intercalate [',', ' '] fs)

/-- The Python type name of a parsed JSON value (`type(x).__name__`),
as it appears in CPython error messages. -/
def pyTypeName : Json → String
  | .null => "NoneType"
  | .bool _ => "bool"
  | .num _ => "int"
  | .str _ => "str"
  | .arr _ => "list"
  | .obj _ => "dict"

/-- The `validate-json` endpoint's validation computation (src/main.py:106):
normalize, then the array-format, markdown, intro-text, parse and structure
checks in order, short-circuiting on the first failure.  Failures are
`ValueError`s, except two escaping from the membership test: a `TypeError`
when the first element is not iterable, and an `AttributeError` when
missing fields are found on a first element with no `.keys()` method —
the debug print `list(first_recipe.keys())` at src/main.py:183 runs before
the missing-fields `ValueError` is raised, so a non-mapping first element
fails there first.  All are caught by the handler at src/main.py:222,
which reports the exception's class name and message and the original
(unstripped, unnormalized) content length. -/
def validate_json (content : List Char) : Outcome :=
  let c := normContent content
  if !arrayFormatOk c then
    { success := false, steps := ⟨false, false, false, false, false⟩,
      content_length := content.length, recipe_count := none,
      error_type := some "ValueError",
      error_message := some "Response must be a JSON array (starts with [ and ends with ])" }
  else if markdownHit c then
    { success := false, steps := ⟨true, false, false, false, false⟩,
      content_length := content.length, recipe_count := none,
      error_type := some "ValueError",
      error_message := some "Invalid response format: Response contains markdown code block" }
  else if introHit c then
    { success := false, steps := ⟨true, true, false, false, false⟩,
      content_length := content.length, recipe_count := none,
      error_type := some "ValueError",
      error_message := some "Invalid response format: Response contains introductory text" }
  else
    match loads c with
    | none =>
      { success := false, steps := ⟨true, true, true, false, false⟩,
        content_length := content.length, recipe_count := none,
        error_type := some "ValueError",
        error_message := some "Invalid JSON format" }
    | some data =>
      match data with
      | .arr .nil =>
        { success := false, steps := ⟨true, true, true, true, false⟩,
          content_length := content.length, recipe_count := none,
          error_type := some "ValueError",
          error_message := some "Response array cannot be empty" }
      | .arr (.cons first restEls) =>
        match missingAux first requiredFields with
        | .error e =>
          { success := false, steps := ⟨true, true, true, true, false⟩,
            content_length := content.length, recipe_count := none,
            error_type := some "TypeError", error_message := some e }
        | .ok [] =>
          { success := true, steps := ⟨true, true, true, true, true⟩,
            content_length := c.length,
            recipe_count := some (JsonList.cons first restEls).length,
            error_type := none, error_message := none }
        | .ok missing =>
          match first with
          | .obj _ =>
            { success := false, steps := ⟨true, true, true, true, false⟩,
              content_length := content.length, recipe_count := none,
              error_type := some "ValueError",
              error_message :=
                some ("Missing required fields in recipe: " ++ joinFields missing) }
          | _ =>
            { success := false, steps := ⟨true, true, true, true, false⟩,
              content_length := content.length, recipe_count := none,
              error_type := some "AttributeError",
              error_message :=
                some ("\x27" ++ pyTypeName first ++
                  "\x27 object has no attribute \x27keys\x27") }
      | _ =>
        { success := false, steps := ⟨true, true, true, true, false⟩,
          content_length := content.length, recipe_count := none,
          error_type := some "ValueError",
          error_message := some "Response must be a JSON array" }

/-! ## The aggregator: `update_visualizations` (src/wandb_visualizations.py) -/

/-- One row of the `validation_data` batch handed to the aggregator: the
fields its computations read. -/
structure VOutcome where
  success : Bool
  steps : Steps
  duration_ms : Nat
  error_type : Option String

/-- Failures that the aggregator raises instead of returning metrics. -/
inductive AggError where
  | keyError (col : String) : AggError

/-- The known error kinds given zero-count entries
(src/wandb_visualizations.py:55). -/
def knownErrorKinds : List String :=
  ["ValueError", "JSONDecodeError", "KeyError", "IndexError", "TypeError", "AttributeError"]

/-- Fueled recursion for `histKeys`; the fuel only bounds the recursion
depth and `histKeys` always passes enough. -/
def histKeysAux : Nat → List String → List String
  | 0, _ => []
  | _ + 1, [] => []
  | fuel + 1, k :: ks => k :: histKeysAux fuel (ks.filter (fun x => x ≠ k))

/-- Distinct keys of a list, first occurrence first (the keys of a pandas
`value_counts`; its descending-count ordering is not modelled and no
statement below depends on entry order). -/
def histKeys (ks : List String) : List String := histKeysAux ks.length ks

/-- Counts of each distinct value of a list. -/
def histOf (kinds : List String) : List (String × Nat) :=
  (histKeys kinds).map (fun k => (k, kinds.count k))

/-- The error kinds of the failed rows of a batch
(`error_data['error_type'].value_counts()` drops rows whose kind is
missing/NaN). -/
def failKinds (l : List VOutcome) : List String :=
  (l.filter (fun o => o.success = false)).filterMap (fun o => o.error_type)

/-- The `error_types/...` entries of `metrics_to_log`
(src/wandb_visualizations.py:50): per-kind counts plus a total when any
failure kind occurred, zero entries for every known kind otherwise. -/
def errorHistogram (l : List VOutcome) : List (String × Nat) :=
  let kinds := failKinds l
  if kinds.isEmpty then knownErrorKinds.map (fun k => (k, 0))
  else histOf kinds ++ [("total_errors", kinds.length)]

/-- The metrics payload assembled by `update_visualizations` (the duration
percentile, chart tables and metadata table are either floating-point or
presentation-only and are not part of any claim). -/
structure AggMetrics where
  success_rate : ℚ
  step_rates : List (String × ℚ)
  error_histogram : List (String × Nat)

/-- Mean of a boolean column over a batch. -/
def boolMean (l : List VOutcome) (f : VOutcome → Bool) : ℚ :=
  (l.countP f : ℚ) / (l.length : ℚ)

/-- `update_visualizations(validation_data)` (src/wandb_visualizations.py:19)
as the pure computation of the metrics it logs.  On an empty batch,
`pd.DataFrame([])` has no columns and the very first column access
`df['success']` raises a pandas `KeyError` — the failure the specification
files under `EmptyBatchError`. -/
def update_visualizations (l : List VOutcome) : Except AggError AggMetrics :=
  if l.isEmpty then .error (.keyError "success")
  else
    .ok
      { success_rate := boolMean l (fun o => o.success)
        step_rates :=
          [("array_format", boolMean l (fun o => o.steps.array_format)),
           ("markdown_removed", boolMean l (fun o => o.steps.markdown_removed)),
           ("intro_text_removed", boolMean l (fun o => o.steps.intro_text_removed)),
           ("json_parsed", boolMean l (fun o => o.steps.json_parsed)),
           ("structure_validated", boolMean l (fun o => o.steps.structure_validated))]
        error_histogram := errorHistogram l }

/-- Checkpoints form a prefix of the fixed order: a later checkpoint is
only true if every earlier one is. -/
def stepsPrefixOk (s : Steps) : Bool :=
  (!s.markdown_removed || s.array_format) &&
  (!s.intro_text_removed || s.markdown_removed) &&
  (!s.json_parsed || s.intro_text_removed) &&
  (!s.structure_validated || s.json_parsed)

/-! ## Auxiliary notions used by the proofs -/

/-- Characters a serialized JSON value can start with. -/
def okHead (c : Char) : Bool :=
  c = '[' || c = '{' || c = '"' || c = 't' || c = 'f' || c = 'n' || c = '-' || isDigitCh c

/-- Characters a line of `json.dumps(·, indent=2)` output can end with:
a structural character or the final character of a serialized value.
Neither a backtick nor the letter `n` is among them, which is what rules
the two markdown patterns out of normalized content. -/
def okBefore (c : Char) : Bool :=
  c = '[' || c = '{' || c = ',' || c = '"' || c = ']' || c = '}' ||
  c = 'e' || c = 'l' || isDigitCh c

/-- Every character directly preceding a newline satisfies `okBefore`. -/
def goodNl : List Char → Bool
  | a :: b :: rest => (!(b = '\n') || okBefore a) && goodNl (b :: rest)
  | _ => true

/-- The junction condition of `goodNl` at a concatenation point. -/
def boundaryOk (xs ys : List Char) : Bool :=
  match xs.getLast?, ys.head? with
  | some a, some b => !(b = '\n') || okBefore a
  | _, _ => true

/-- No character that could extend a number token: the serializer only
puts such characters after a serialized number. -/
def numSafeB : List Char → Bool
  | [] => true
  | c :: _ => !(isDigitCh c || c = '.' || c = 'e' || c = 'E')

mutual

/-- Recursion-depth measure of the fueled parser on serialized values. -/
def ncV : Json → Nat
  | .null => 1
  | .bool _ => 1
  | .num _ => 1
  | .str _ => 1
  | .arr .nil => 1
  | .arr (.cons x xs) => 1 + ncItems (.cons x xs)
  | .obj .nil => 1
  | .obj (.cons k v ps) => 1 + ncPairs (.cons k v ps)

/-- Measure for `parseItems` on a serialized item list. -/
def ncItems : JsonList → Nat
  | .nil => 0
  | .cons y ys => 1 + ncV y + ncItems ys

/-- Measure for `parsePairs` on a serialized entry list. -/
def ncPairs : JsonPairs → Nat
  | .nil => 0
  | .cons _ v qs => 1 + ncV v + ncPairs qs

end

/-- The text following the first item of a serialized non-empty array:
separators, the remaining items, and the closing bracket at the outer
indentation, before arbitrary trailing text. -/
def itemsSuffix (lvl pad : Nat) : JsonList → List Char → List Char
  | .nil, rest => '\n' :: (indentChars pad ++ ']' :: rest)
  | .cons y ys, rest =>
      ',' :: '\n' :: (indentChars lvl ++ (serValue lvl y ++ itemsSuffix lvl pad ys rest))

/-- The text following the first entry of a serialized non-empty object. -/
def pairsSuffix (lvl pad : Nat) : JsonPairs → List Char → List Char
  | .nil, rest => '\n' :: (indentChars pad ++ '}' :: rest)
  | .cons k v qs, rest =>
      ',' :: '\n' ::
        (indentChars lvl ++
          (serStr k ++ ':' :: ' ' :: (serValue lvl v ++ pairsSuffix lvl pad qs rest)))

/-! ## Theorems

First, general lemmas about the embedded library functions; the claim
theorems follow at the end of the file. -/

theorem mem_histKeysAux (k : String) :
    ∀ (n : Nat) (ks : List String), ks.length ≤ n → (k ∈ histKeysAux n ks ↔ k ∈ ks) := by
  intro n
  induction n with
  | zero =>
    intro ks h
    have : ks = [] := List.eq_nil_of_length_eq_zero (Nat.le_zero.mp h)
    subst this
    simp [histKeysAux]
  | succ n ih =>
    intro ks h
    match ks with
    | [] => simp [histKeysAux]
    | k0 :: ks0 =>
      rw [histKeysAux]
      have hlen : (ks0.filter (fun x => x ≠ k0)).length ≤ n := by
        have := List.length_filter_le (fun x => decide (x ≠ k0)) ks0
        simp at h
        omega
      by_cases hk : k = k0
      · subst hk; simp
      · simp only [List.mem_cons, ih _ hlen, List.mem_filter]
        constructor
        · rintro (h1 | ⟨h1, _⟩)
          · exact absurd h1 hk
          · exact Or.inr h1
        · rintro (h1 | h1)
          · exact absurd h1 hk
          · exact Or.inr ⟨h1, by simpa using hk⟩

theorem mem_histKeys (k : String) (ks : List String) : k ∈ histKeys ks ↔ k ∈ ks :=
  mem_histKeysAux k ks.length ks (Nat.le_refl _)

theorem lookup_map_self {α β : Type} [BEq α] [LawfulBEq α] (k : α) (f : α → β) :
    ∀ (keys : List α), k ∈ keys → List.lookup k (keys.map (fun x => (x, f x))) = some (f k) := by
  intro keys
  induction keys with
  | nil => intro h; simp at h
  | cons k0 ks ih =>
    intro h
    simp only [List.map_cons, List.lookup_cons]
    by_cases hk : k = k0
    · subst hk; simp
    · have : (k == k0) = false := by simpa using hk
      rw [this]
      rcases List.mem_cons.mp h with h1 | h1
      · exact absurd h1 hk
      · exact ih h1

theorem lookup_append_some {α β : Type} [BEq α] (k : α) (v : β)
    (xs ys : List (α × β)) (h : List.lookup k xs = some v) :
    List.lookup k (xs ++ ys) = some v := by
  induction xs with
  | nil => simp at h
  | cons p ps ih =>
    rcases p with ⟨a, b⟩
    simp only [List.cons_append, List.lookup_cons] at h ⊢
    cases hk : k == a with
    | true => rw [hk] at h; exact h
    | false => rw [hk] at h; exact ih h

theorem lookup_errorHistogram (l : List VOutcome) (k : String) (hk : k ∈ failKinds l) :
    List.lookup k (errorHistogram l) = some ((failKinds l).count k) := by
  have hne : (failKinds l).isEmpty = false := by
    cases h : failKinds l with
    | nil => rw [h] at hk; simp at hk
    | cons a as => simp
  simp only [errorHistogram, hne, Bool.false_eq_true, if_false]
  apply lookup_append_some
  unfold histOf
  exact lookup_map_self k _ _ ((mem_histKeys k _).mpr hk)

/-! ### Character facts -/

theorem char_eq_of_toNat_eq {c d : Char} (h : c.toNat = d.toNat) : c = d := by
  have h2 := congrArg Char.ofNat h
  rwa [Char.ofNat_toNat, Char.ofNat_toNat] at h2

theorem char_ne_of_toNat_ne {c d : Char} (h : c.toNat ≠ d.toNat) : c ≠ d :=
  fun he => h (congrArg Char.toNat he)

theorem char_toNat_valid (c : Char) :
    c.toNat < 0xd800 ∨ (0xe000 ≤ c.toNat ∧ c.toNat < 0x110000) := c.valid

/-! ### Whitespace-skipping facts -/

theorem skipWs_nil : skipWs [] = [] := rfl

theorem skipWs_cons_of_ws {c : Char} (h : isJsonWs c = true) (cs : List Char) :
    skipWs (c :: cs) = skipWs cs := by
  simp [skipWs, List.dropWhile_cons, h]

theorem skipWs_cons_of_not_ws {c : Char} (h : isJsonWs c = false) (cs : List Char) :
    skipWs (c :: cs) = c :: cs := by
  simp [skipWs, List.dropWhile_cons, h]

theorem skipWs_replicate_space (n : Nat) (cs : List Char) :
    skipWs (List.replicate n ' ' ++ cs) = skipWs cs := by
  induction n with
  | zero => simp
  | succ n ih =>
    rw [List.replicate_succ, List.cons_append, skipWs_cons_of_ws (by decide)]
    exact ih

theorem skipWs_indent (lvl : Nat) (cs : List Char) :
    skipWs (indentChars lvl ++ cs) = skipWs cs := skipWs_replicate_space _ _

theorem pyIsSpace_of_isJsonWs {c : Char} (h : isJsonWs c = true) : pyIsSpace c = true := by
  simp only [isJsonWs, Bool.or_eq_true, decide_eq_true_eq] at h
  rcases h with ((h | h) | h) | h <;> subst h <;> decide

/-! ### Decimal digit facts -/

theorem digitChar_toNat : ∀ k, k < 10 → (digitChar k).toNat = 48 + k := by decide

theorem isDigitCh_digitChar : ∀ k, k < 10 → isDigitCh (digitChar k) = true := by decide

theorem natDigitsAux_eq :
    ∀ (n fuel : Nat) (acc : List Char), n < fuel →
      natDigitsAux fuel n acc = natDigits n ++ acc := by
  intro n
  induction n using Nat.strong_induction_on with
  | _ n ih =>
    intro fuel acc hf
    match fuel, hf with
    | fuel + 1, _ =>
      by_cases h10 : n < 10
      · rw [natDigitsAux, if_pos h10, natDigits, natDigitsAux, if_pos h10]
        rfl
      · have hdiv : n / 10 < n := Nat.div_lt_self (by omega) (by omega)
        rw [natDigitsAux, if_neg h10, natDigits]
        have hn : n + 1 = n + 1 := rfl
        rw [show natDigitsAux (n + 1) n [] =
              natDigitsAux n (n / 10) (digitChar (n % 10) :: []) by
            rw [natDigitsAux, if_neg h10]]
        rw [ih (n / 10) hdiv fuel _ (by omega), ih (n / 10) hdiv n _ (by omega)]
        simp

theorem natDigits_eq (n : Nat) :
    natDigits n =
      if n < 10 then [digitChar n] else natDigits (n / 10) ++ [digitChar (n % 10)] := by
  by_cases h10 : n < 10
  · rw [natDigits, natDigitsAux, if_pos h10, if_pos h10]
  · have hdiv : n / 10 < n := Nat.div_lt_self (by omega) (by omega)
    rw [natDigits, natDigitsAux, if_neg h10, if_neg h10,
      natDigitsAux_eq (n / 10) n _ (by omega)]

theorem natDigits_facts (n : Nat) :
    ∃ c t, natDigits n = c :: t ∧ isDigitCh c = true ∧ (n = 0 ∨ c ≠ '0') ∧
      (∀ d ∈ natDigits n, isDigitCh d = true) := by
  induction n using Nat.strong_induction_on with
  | _ n ih =>
    by_cases h10 : n < 10
    · refine ⟨digitChar n, [], by rw [natDigits_eq, if_pos h10], isDigitCh_digitChar n h10, ?_, ?_⟩
      · by_cases h0 : n = 0
        · exact Or.inl h0
        · refine Or.inr (char_ne_of_toNat_ne ?_)
          rw [digitChar_toNat n h10, show ('0').toNat = 48 from rfl]
          intro hcon
          exact h0 (by omega)
      · intro d hd
        rw [natDigits_eq, if_pos h10] at hd
        simp at hd
        subst hd
        exact isDigitCh_digitChar n h10
    · have hdiv : n / 10 < n := Nat.div_lt_self (by omega) (by omega)
      obtain ⟨c, t, hct, hdig, hzero, hall⟩ := ih (n / 10) hdiv
      have hne : n / 10 ≠ 0 := by omega
      refine ⟨c, t ++ [digitChar (n % 10)], ?_, hdig, Or.inr ?_, ?_⟩
      · rw [natDigits_eq, if_neg h10, hct]
        rfl
      · rcases hzero with h | h
        · exact absurd h hne
        · exact h
      · intro d hd
        rw [natDigits_eq, if_neg h10] at hd
        rcases List.mem_append.mp hd with h | h
        · exact hall d h
        · simp at h
          subst h
          exact isDigitCh_digitChar _ (Nat.mod_lt _ (by omega))

theorem digitsVal_natDigits (n : Nat) : digitsVal (natDigits n) = n := by
  induction n using Nat.strong_induction_on with
  | _ n ih =>
    by_cases h10 : n < 10
    · rw [natDigits_eq, if_pos h10]
      simp [digitsVal, digitChar_toNat n h10]
    · have hdiv : n / 10 < n := Nat.div_lt_self (by omega) (by omega)
      rw [natDigits_eq, if_neg h10]
      unfold digitsVal
      rw [List.foldl_append]
      have hmod := digitChar_toNat (n % 10) (Nat.mod_lt _ (by omega))
      show (natDigits (n / 10)).foldl (fun a c => a * 10 + (c.toNat - 48)) 0 * 10 +
          ((digitChar (n % 10)).toNat - 48) = n
      rw [show (natDigits (n / 10)).foldl (fun a c => a * 10 + (c.toNat - 48)) 0 =
            digitsVal (natDigits (n / 10)) from rfl, ih (n / 10) hdiv, hmod]
      omega

/-! ### Number parse/serialize roundtrip -/

theorem isDigitCh_toNat {c : Char} (h : isDigitCh c = true) : 48 ≤ c.toNat ∧ c.toNat ≤ 57 := by
  simpa [isDigitCh] using h

theorem numSafeB_parts {c : Char} {t : List Char} (h : numSafeB (c :: t) = true) :
    isDigitCh c = false ∧ c ≠ '.' ∧ c ≠ 'e' ∧ c ≠ 'E' := by
  simp only [numSafeB, Bool.not_eq_eq_eq_not, Bool.not_true, Bool.or_eq_false_iff,
    decide_eq_false_iff_not] at h
  exact ⟨h.1.1.1, h.1.1.2, h.1.2, h.2⟩

theorem checkNoFloat_of_numSafe {n : Nat} {r : List Char} (h : numSafeB r = true) :
    checkNoFloat n r = some (n, r) := by
  cases r with
  | nil => rfl
  | cons c t =>
    obtain ⟨_, h2, h3, h4⟩ := numSafeB_parts h
    simp only [checkNoFloat]
    rw [if_neg]
    intro hcon
    rcases hcon with hc | hc | hc
    · exact h2 hc
    · exact h3 hc
    · exact h4 hc

theorem takeWhile_digits_of_numSafe {r : List Char} (h : numSafeB r = true) :
    r.takeWhile isDigitCh = [] ∧ r.dropWhile isDigitCh = r := by
  cases r with
  | nil => exact ⟨rfl, rfl⟩
  | cons c t =>
    obtain ⟨h1, _, _, _⟩ := numSafeB_parts h
    constructor
    · rw [List.takeWhile_cons, h1]
      simp
    · rw [List.dropWhile_cons, h1]
      simp

theorem parseNumAux_digits {n : Nat} {rest : List Char} (hsafe : numSafeB rest = true) :
    parseNumAux (natDigits n ++ rest) = some (n, rest) := by
  obtain ⟨c, t, hct, hdig, hzero, hall⟩ := natDigits_facts n
  have halltail : ∀ d ∈ t, isDigitCh d = true := by
    intro d hd
    exact hall d (by rw [hct]; exact List.mem_cons_of_mem _ hd)
  obtain ⟨htake, hdrop⟩ := takeWhile_digits_of_numSafe hsafe
  by_cases h0 : c = '0'
  · have hn0 : n = 0 := by
      rcases hzero with h | h
      · exact h
      · exact absurd h0 h
    subst hn0
    have : natDigits 0 = ['0'] := rfl
    rw [this] at hct
    have hc0 : c = '0' := h0
    have ht : t = [] := by
      cases hct
      rfl
    subst ht h0
    rw [this]
    show parseNumAux ('0' :: rest) = some (0, rest)
    simp only [parseNumAux, if_pos rfl]
    exact checkNoFloat_of_numSafe hsafe
  · rw [hct, List.cons_append]
    simp only [parseNumAux]
    rw [if_neg h0, if_pos hdig]
    rw [List.takeWhile_append_of_pos halltail, htake, List.append_nil,
      List.dropWhile_append_of_pos halltail, hdrop]
    rw [show (c :: t) = natDigits n from hct.symm, digitsVal_natDigits]
    exact checkNoFloat_of_numSafe hsafe

theorem parseNumber_serInt {n : Int} {rest : List Char} (hsafe : numSafeB rest = true) :
    parseNumber (serInt n ++ rest) = some (n, rest) := by
  unfold serInt
  by_cases hneg : n < 0
  · rw [if_pos hneg, List.cons_append]
    simp only [parseNumber, if_pos rfl]
    rw [parseNumAux_digits hsafe]
    show some (-(((-n).toNat : Nat) : Int), rest) = some (n, rest)
    refine congrArg (fun m => some (m, rest)) ?_
    omega
  · rw [if_neg hneg]
    obtain ⟨c, t, hct, hdig, _, _⟩ := natDigits_facts n.toNat
    have hcne : ¬(c = '-') := by
      apply char_ne_of_toNat_ne
      have := isDigitCh_toNat hdig
      rw [show ('-').toNat = 45 from rfl]
      omega
    rw [hct, List.cons_append]
    simp only [parseNumber]
    rw [if_neg hcne, ← List.cons_append, show (c :: t) = natDigits n.toNat from hct.symm,
      parseNumAux_digits hsafe]
    show some ((n.toNat : Int), rest) = some (n, rest)
    refine congrArg (fun m => some (m, rest)) ?_
    omega

/-! ### String parse/serialize roundtrip -/

theorem hexDigitVal_hexChar : ∀ k, k < 16 → hexDigitVal (hexChar k) = some k := by decide

theorem hex4Val_hexChars {n : Nat} (h : n < 0x10000) :
    hex4Val (hexChar (n / 4096 % 16)) (hexChar (n / 256 % 16))
      (hexChar (n / 16 % 16)) (hexChar (n % 16)) = some n := by
  unfold hex4Val
  rw [hexDigitVal_hexChar _ (by omega), hexDigitVal_hexChar _ (by omega),
    hexDigitVal_hexChar _ (by omega), hexDigitVal_hexChar _ (by omega)]
  refine congrArg some ?_
  have d1 := Nat.div_add_mod n 4096
  have d2 := Nat.div_add_mod (n % 4096) 256
  have d3 := Nat.div_add_mod (n % 4096 % 256) 16
  have m2 : n / 256 % 16 = n % (256 * 16) / 256 := (Nat.mod_mul_right_div_self n 256 16).symm
  have m3 : n / 16 % 16 = n % (16 * 16) / 16 := (Nat.mod_mul_right_div_self n 16 16).symm
  have m4 : n % 4096 % 256 = n % 256 := Nat.mod_mod_of_dvd n (by norm_num)
  have m1 : n / 4096 % 16 = n / 4096 := Nat.mod_eq_of_lt (by omega)
  omega

theorem take4hex_hex4 {n : Nat} (h : n < 0x10000) (r : List Char) :
    take4hex (hex4 n ++ r) = some (n, r) := by
  show take4hex (hexChar (n / 4096 % 16) :: hexChar (n / 256 % 16) ::
    hexChar (n / 16 % 16) :: hexChar (n % 16) :: r) = some (n, r)
  rw [take4hex, hex4Val_hexChars h]

theorem decodeOne_escChar (c : Char) (t : List Char) :
    decodeOne (escChar c ++ t) = some (c, t) := by
  unfold escChar
  by_cases h1 : c = '"'
  · rw [if_pos h1, h1]
    rfl
  rw [if_neg h1]
  by_cases h2 : c = '\\'
  · rw [if_pos h2, h2]
    rfl
  rw [if_neg h2]
  by_cases h3 : c = '\n'
  · rw [if_pos h3, h3]
    rfl
  rw [if_neg h3]
  by_cases h4 : c = '\r'
  · rw [if_pos h4, h4]
    rfl
  rw [if_neg h4]
  by_cases h5 : c = '\t'
  · rw [if_pos h5, h5]
    rfl
  rw [if_neg h5]
  by_cases h6 : c = '\x08'
  · rw [if_pos h6, h6]
    rfl
  rw [if_neg h6]
  by_cases h7 : c = '\x0c'
  · rw [if_pos h7, h7]
    rfl
  rw [if_neg h7]
  by_cases h8 : 0x20 ≤ c.toNat ∧ c.toNat ≤ 0x7e
  · rw [if_pos h8]
    show decodeOne (c :: t) = some (c, t)
    rw [decodeOne, if_neg h2, if_pos h8.1]
  rw [if_neg h8]
  by_cases h9 : c.toNat < 0x10000
  · rw [if_pos h9]
    show decodeOne ('\\' :: 'u' :: (hex4 c.toNat ++ t)) = some (c, t)
    rw [decodeOne, if_pos rfl, decodeEsc,
      if_neg (by decide : ¬(isSimpleEsc 'u' = true)), if_pos rfl, decodeU,
      take4hex_hex4 h9]
    dsimp only
    have hval : c.toNat < 0xd800 ∨ 0xe000 ≤ c.toNat := by
      rcases char_toNat_valid c with hv | hv
      · exact Or.inl hv
      · exact Or.inr hv.1
    rw [if_pos hval, Char.ofNat_toNat]
  · rw [if_neg h9]
    have hval : 0xe000 ≤ c.toNat ∧ c.toNat < 0x110000 := by
      rcases char_toNat_valid c with hv | hv
      · omega
      · exact hv
    have hu : c.toNat - 0x10000 < 0x100000 := by omega
    rw [show ('\\' :: 'u' :: hex4 (0xd800 + (c.toNat - 0x10000) / 0x400) ++
          '\\' :: 'u' :: hex4 (0xdc00 + (c.toNat - 0x10000) % 0x400)) ++ t =
        '\\' :: 'u' :: (hex4 (0xd800 + (c.toNat - 0x10000) / 0x400) ++
          ('\\' :: 'u' :: (hex4 (0xdc00 + (c.toNat - 0x10000) % 0x400) ++ t))) from by simp]
    rw [decodeOne, if_pos rfl, decodeEsc,
      if_neg (by decide : ¬(isSimpleEsc 'u' = true)), if_pos rfl, decodeU,
      take4hex_hex4 (by omega)]
    dsimp only
    rw [if_neg (by omega), if_pos (by omega : 0xd800 + (c.toNat - 0x10000) / 0x400 < 0xdc00)]
    rw [decodeLow, if_pos (⟨rfl, rfl⟩ : ('\\' : Char) = '\\' ∧ ('u' : Char) = 'u'),
      take4hex_hex4 (by omega)]
    dsimp only
    rw [if_pos (by omega : 0xdc00 ≤ 0xdc00 + (c.toNat - 0x10000) % 0x400 ∧
          0xdc00 + (c.toNat - 0x10000) % 0x400 < 0xe000)]
    rw [show 0x10000 + (0xd800 + (c.toNat - 0x10000) / 0x400 - 0xd800) * 0x400 +
          (0xdc00 + (c.toNat - 0x10000) % 0x400 - 0xdc00) = c.toNat from by omega,
      Char.ofNat_toNat]

theorem escChar_head (c : Char) :
    ∃ d t, escChar c = d :: t ∧ d ≠ '"' := by
  unfold escChar
  by_cases h1 : c = '"'
  · rw [if_pos h1]; exact ⟨'\\', _, rfl, by decide⟩
  rw [if_neg h1]
  by_cases h2 : c = '\\'
  · rw [if_pos h2]; exact ⟨'\\', _, rfl, by decide⟩
  rw [if_neg h2]
  by_cases h3 : c = '\n'
  · rw [if_pos h3]; exact ⟨'\\', _, rfl, by decide⟩
  rw [if_neg h3]
  by_cases h4 : c = '\r'
  · rw [if_pos h4]; exact ⟨'\\', _, rfl, by decide⟩
  rw [if_neg h4]
  by_cases h5 : c = '\t'
  · rw [if_pos h5]; exact ⟨'\\', _, rfl, by decide⟩
  rw [if_neg h5]
  by_cases h6 : c = '\x08'
  · rw [if_pos h6]; exact ⟨'\\', _, rfl, by decide⟩
  rw [if_neg h6]
  by_cases h7 : c = '\x0c'
  · rw [if_pos h7]; exact ⟨'\\', _, rfl, by decide⟩
  rw [if_neg h7]
  by_cases h8 : 0x20 ≤ c.toNat ∧ c.toNat ≤ 0x7e
  · rw [if_pos h8]; exact ⟨c, [], rfl, h1⟩
  rw [if_neg h8]
  by_cases h9 : c.toNat < 0x10000
  · rw [if_pos h9]; exact ⟨'\\', _, rfl, by decide⟩
  · rw [if_neg h9]; exact ⟨'\\', _, rfl, by decide⟩

theorem parseStringBody_escBody :
    ∀ (s : List Char) (fuel : Nat) (r : List Char), s.length < fuel →
      parseStringBody fuel (escBody s ++ ('"' :: r)) = some (s, r) := by
  intro s
  induction s with
  | nil =>
    intro fuel r hf
    cases fuel with
    | zero => exact absurd hf (by simp)
    | succ fuel =>
      show parseStringBody (fuel + 1) ('"' :: r) = some ([], r)
      rw [parseStringBody, if_pos rfl]
  | cons c cs ih =>
    intro fuel r hf
    cases fuel with
    | zero => exact absurd hf (by simp)
    | succ fuel =>
      rw [escBody, List.append_assoc]
      obtain ⟨d, t, hdt, hdq⟩ := escChar_head c
      have hih := ih fuel r (by simp at hf; omega)
      rw [hdt, List.cons_append, parseStringBody, if_neg hdq, ← List.cons_append, ← hdt,
        decodeOne_escChar]
      simp [hih]

/-! ### Facts about `pyStrip` output -/

theorem pyStrip_getLast {content : List Char} {c : Char}
    (h : (pyStrip content).getLast? = some c) : pyIsSpace c = false := by
  unfold pyStrip at h
  rw [List.getLast?_reverse] at h
  have h2 := List.head?_dropWhile_not pyIsSpace (content.dropWhile pyIsSpace).reverse
  rw [h] at h2
  exact h2

theorem pyStrip_head {content : List Char} {c : Char}
    (h : (pyStrip content).head? = some c) : pyIsSpace c = false := by
  unfold pyStrip at h
  rw [List.head?_reverse] at h
  rcases hsfx : (content.dropWhile pyIsSpace).reverse.dropWhile pyIsSpace with _ | ⟨d, t⟩
  · rw [hsfx] at h; simp at h
  · have hsuffix : (d :: t) <:+ (content.dropWhile pyIsSpace).reverse := by
      rw [← hsfx]; exact List.dropWhile_suffix _
    rcases hsuffix with ⟨pre, hpre⟩
    rw [hsfx] at h
    have hlast : ((content.dropWhile pyIsSpace).reverse).getLast? = some c := by
      rw [← hpre, List.getLast?_append]
      rw [h]
      rfl
    rw [List.getLast?_reverse] at hlast
    have h2 := List.head?_dropWhile_not pyIsSpace content
    rw [hlast] at h2
    exact h2

/-! ### Serializer head and last characters -/

theorem serInt_head (n : Int) :
    ∃ c t, serInt n = c :: t ∧ (c = '-' ∨ isDigitCh c = true) := by
  unfold serInt
  by_cases h : n < 0
  · rw [if_pos h]
    exact ⟨'-', _, rfl, Or.inl rfl⟩
  · rw [if_neg h]
    obtain ⟨c, t, hct, hdig, _, _⟩ := natDigits_facts n.toNat
    exact ⟨c, t, hct, Or.inr hdig⟩

theorem serValue_head (lvl : Nat) (v : Json) :
    ∃ c t, serValue lvl v = c :: t ∧ okHead c = true := by
  cases v with
  | null => exact ⟨'n', _, rfl, by decide⟩
  | bool b =>
    cases b with
    | true => exact ⟨'t', _, rfl, by decide⟩
    | false => exact ⟨'f', _, rfl, by decide⟩
  | num n =>
    obtain ⟨c, t, hct, hc⟩ := serInt_head n
    refine ⟨c, t, hct, ?_⟩
    rcases hc with h | h
    · subst h; decide
    · simp [okHead, h]
  | str s => exact ⟨'"', _, rfl, by decide⟩
  | arr l =>
    cases l with
    | nil => exact ⟨'[', _, rfl, by decide⟩
    | cons x xs => exact ⟨'[', _, rfl, by decide⟩
  | obj ps =>
    cases ps with
    | nil => exact ⟨'{', _, rfl, by decide⟩
    | cons k v2 qs => exact ⟨'{', _, rfl, by decide⟩

theorem okHead_props {c : Char} (h : okHead c = true) :
    isJsonWs c = false ∧ c ≠ ']' ∧ c ≠ '}' := by
  simp only [okHead, Bool.or_eq_true, decide_eq_true_eq] at h
  rcases h with ((((((h | h) | h) | h) | h) | h) | h) | h
  · subst h; exact ⟨by decide, by decide, by decide⟩
  · subst h; exact ⟨by decide, by decide, by decide⟩
  · subst h; exact ⟨by decide, by decide, by decide⟩
  · subst h; exact ⟨by decide, by decide, by decide⟩
  · subst h; exact ⟨by decide, by decide, by decide⟩
  · subst h; exact ⟨by decide, by decide, by decide⟩
  · subst h; exact ⟨by decide, by decide, by decide⟩
  · obtain ⟨h1, h2⟩ := isDigitCh_toNat h
    have hsp : c ≠ ' ' := char_ne_of_toNat_ne (by rw [show (' ').toNat = 32 from rfl]; omega)
    have hta : c ≠ '\t' := char_ne_of_toNat_ne (by rw [show ('\t').toNat = 9 from rfl]; omega)
    have hnl : c ≠ '\n' := char_ne_of_toNat_ne (by rw [show ('\n').toNat = 10 from rfl]; omega)
    have hcr : c ≠ '\r' := char_ne_of_toNat_ne (by rw [show ('\r').toNat = 13 from rfl]; omega)
    refine ⟨by simp [isJsonWs, hsp, hta, hnl, hcr], ?_, ?_⟩
    · exact char_ne_of_toNat_ne (by rw [show (']').toNat = 93 from rfl]; omega)
    · exact char_ne_of_toNat_ne (by rw [show ('}').toNat = 125 from rfl]; omega)

theorem serValue_head_ne_lbracket (lvl : Nat) (v : Json) (h : ∀ l, v ≠ .arr l) :
    ∃ c t, serValue lvl v = c :: t ∧ c ≠ '[' := by
  cases v with
  | null => exact ⟨'n', _, rfl, by decide⟩
  | bool b =>
    cases b with
    | true => exact ⟨'t', _, rfl, by decide⟩
    | false => exact ⟨'f', _, rfl, by decide⟩
  | num n =>
    obtain ⟨c, t, hct, hc⟩ := serInt_head n
    refine ⟨c, t, hct, ?_⟩
    rcases hc with hm | hm
    · subst hm; decide
    · obtain ⟨h1, h2⟩ := isDigitCh_toNat hm
      exact char_ne_of_toNat_ne (by rw [show ('[').toNat = 91 from rfl]; omega)
  | str s => exact ⟨'"', _, rfl, by decide⟩
  | arr l => exact absurd rfl (h l)
  | obj ps =>
    cases ps with
    | nil => exact ⟨'{', _, rfl, by decide⟩
    | cons k v2 qs => exact ⟨'{', _, rfl, by decide⟩

theorem getLast?_cons_cons_append_concat (a b : Char) (xs ys : List Char) (c : Char) :
    (a :: b :: (xs ++ ys ++ [c])).getLast? = some c := by
  rw [show a :: b :: (xs ++ ys ++ [c]) = (a :: b :: (xs ++ ys)) ++ [c] from by simp]
  exact List.getLast?_concat _

theorem serValue_arr_last (lvl : Nat) (l : JsonList) :
    (serValue lvl (.arr l)).getLast? = some ']' := by
  cases l with
  | nil => rfl
  | cons x xs =>
    show ('[' :: '\n' ::
      (serItems (lvl + 1) (.cons x xs) ++ '\n' :: (indentChars lvl ++ [']']))).getLast? = some ']'
    rw [show serItems (lvl + 1) (.cons x xs) ++ '\n' :: (indentChars lvl ++ [']']) =
          serItems (lvl + 1) (.cons x xs) ++ ('\n' :: indentChars lvl) ++ [']'] from by simp]
    exact getLast?_cons_cons_append_concat _ _ _ _ _

theorem natDigits_last_digit (n : Nat) :
    ∃ c, (natDigits n).getLast? = some c ∧ isDigitCh c = true := by
  obtain ⟨c, t, hct, _, _, hall⟩ := natDigits_facts n
  have hne : natDigits n ≠ [] := by rw [hct]; exact List.cons_ne_nil _ _
  refine ⟨(natDigits n).getLast hne, List.getLast?_eq_getLast _ hne, ?_⟩
  exact hall _ (List.getLast_mem hne)

theorem serValue_last (lvl : Nat) (v : Json) :
    ∃ c, (serValue lvl v).getLast? = some c ∧ okBefore c = true := by
  cases v with
  | null => exact ⟨'l', rfl, by decide⟩
  | bool b =>
    cases b with
    | true => exact ⟨'e', rfl, by decide⟩
    | false => exact ⟨'e', rfl, by decide⟩
  | num n =>
    show ∃ c, (serInt n).getLast? = some c ∧ okBefore c = true
    unfold serInt
    by_cases h : n < 0
    · rw [if_pos h]
      obtain ⟨c, hc, hdig⟩ := natDigits_last_digit (-n).toNat
      refine ⟨c, ?_, by simp [okBefore, hdig]⟩
      rw [show ('-' :: natDigits (-n).toNat) = ['-'] ++ natDigits (-n).toNat from rfl,
        List.getLast?_append, hc]
      rfl
    · rw [if_neg h]
      obtain ⟨c, hc, hdig⟩ := natDigits_last_digit n.toNat
      exact ⟨c, hc, by simp [okBefore, hdig]⟩
  | str s =>
    refine ⟨'"', ?_, by decide⟩
    show ('"' :: (escBody s ++ ['"'])).getLast? = some '"'
    rw [show '"' :: (escBody s ++ ['"']) = ('"' :: escBody s) ++ ['"'] from by simp]
    exact List.getLast?_concat _
  | arr l => exact ⟨']', serValue_arr_last lvl l, by decide⟩
  | obj ps =>
    cases ps with
    | nil => exact ⟨'}', rfl, by decide⟩
    | cons k v2 qs =>
      refine ⟨'}', ?_, by decide⟩
      show ('{' :: '\n' ::
        (serPairs (lvl + 1) (.cons k v2 qs) ++ '\n' :: (indentChars lvl ++ ['}']))).getLast? = some '}'
      rw [show serPairs (lvl + 1) (.cons k v2 qs) ++ '\n' :: (indentChars lvl ++ ['}']) =
            serPairs (lvl + 1) (.cons k v2 qs) ++ ('\n' :: indentChars lvl) ++ ['}'] from by simp]
      exact getLast?_cons_cons_append_concat _ _ _ _ _

/-! ### No markdown fence in serializer output: newline-predecessor facts -/

theorem ne_nl_of_not_ws {c : Char} (h : isJsonWs c = false) : c ≠ '\n' := by
  intro he
  subst he
  exact absurd h (by decide)

theorem goodNl_cons_of_nl_not_mem (a : Char) :
    ∀ l : List Char, '\n' ∉ l → goodNl (a :: l) = true := by
  intro l
  induction l generalizing a with
  | nil => intro _; rfl
  | cons b t ih =>
    intro h
    rw [goodNl]
    have hb : ¬(b = '\n') := by
      intro he
      exact h (by rw [he]; exact List.mem_cons_self _ _)
    rw [ih b (fun hm => h (List.mem_cons_of_mem _ hm))]
    simp [hb]

theorem goodNl_of_nl_not_mem : ∀ l : List Char, '\n' ∉ l → goodNl l = true := by
  intro l h
  cases l with
  | nil => rfl
  | cons a t =>
    exact goodNl_cons_of_nl_not_mem a t (fun hm => h (List.mem_cons_of_mem _ hm))

theorem hexChar_ne_nl : ∀ k, k < 16 → hexChar k ≠ '\n' := by decide

theorem nl_not_mem_hex4 (n : Nat) : '\n' ∉ hex4 n := by
  intro h
  simp only [hex4, List.mem_cons, List.not_mem_nil, or_false] at h
  rcases h with h | h | h | h <;>
    exact hexChar_ne_nl _ (Nat.mod_lt _ (by omega)) h.symm

theorem nl_not_mem_escChar (c : Char) : '\n' ∉ escChar c := by
  unfold escChar
  by_cases h1 : c = '"'
  · rw [if_pos h1]; decide
  rw [if_neg h1]
  by_cases h2 : c = '\\'
  · rw [if_pos h2]; decide
  rw [if_neg h2]
  by_cases h3 : c = '\n'
  · rw [if_pos h3]; decide
  rw [if_neg h3]
  by_cases h4 : c = '\r'
  · rw [if_pos h4]; decide
  rw [if_neg h4]
  by_cases h5 : c = '\t'
  · rw [if_pos h5]; decide
  rw [if_neg h5]
  by_cases h6 : c = '\x08'
  · rw [if_pos h6]; decide
  rw [if_neg h6]
  by_cases h7 : c = '\x0c'
  · rw [if_pos h7]; decide
  rw [if_neg h7]
  by_cases h8 : 0x20 ≤ c.toNat ∧ c.toNat ≤ 0x7e
  · rw [if_pos h8]
    intro hm
    simp only [List.mem_cons, List.not_mem_nil, or_false] at hm
    exact h3 hm.symm
  rw [if_neg h8]
  by_cases h9 : c.toNat < 0x10000
  · rw [if_pos h9]
    intro hm
    simp only [List.mem_cons] at hm
    rcases hm with h | h | h
    · exact absurd h.symm (by decide)
    · exact absurd h.symm (by decide)
    · exact nl_not_mem_hex4 _ h
  · rw [if_neg h9]
    intro hm
    simp only [List.cons_append, List.mem_cons, List.mem_append] at hm
    rcases hm with h | h | h | h | h | h
    · exact absurd h.symm (by decide)
    · exact absurd h.symm (by decide)
    · exact nl_not_mem_hex4 _ h
    · exact absurd h.symm (by decide)
    · exact absurd h.symm (by decide)
    · exact nl_not_mem_hex4 _ h

theorem nl_not_mem_escBody : ∀ s : List Char, '\n' ∉ escBody s := by
  intro s
  induction s with
  | nil => exact List.not_mem_nil _
  | cons c cs ih =>
    rw [escBody]
    intro hm
    rcases List.mem_append.mp hm with h | h
    · exact nl_not_mem_escChar c h
    · exact ih h

theorem nl_not_mem_serStr (s : List Char) : '\n' ∉ serStr s := by
  rw [serStr]
  intro hm
  rcases List.mem_cons.mp hm with h | h
  · exact absurd h.symm (by decide)
  · rcases List.mem_append.mp h with h2 | h2
    · exact nl_not_mem_escBody s h2
    · simp at h2

theorem nl_not_mem_serInt (n : Int) : '\n' ∉ serInt n := by
  unfold serInt
  have hdig : ∀ m : Nat, '\n' ∉ natDigits m := by
    intro m hm
    obtain ⟨_, _, _, _, _, hall⟩ := natDigits_facts m
    have := hall _ hm
    exact absurd this (by decide)
  by_cases h : n < 0
  · rw [if_pos h]
    intro hm
    rcases List.mem_cons.mp hm with h2 | h2
    · exact absurd h2.symm (by decide)
    · exact hdig _ h2
  · rw [if_neg h]
    exact hdig _

theorem nl_not_mem_indent (lvl : Nat) : '\n' ∉ indentChars lvl := by
  intro hm
  have := List.eq_of_mem_replicate hm
  exact absurd this (by decide)

theorem containsSeq_iff (needle hay : List Char) :
    containsSeq needle hay = true ↔ ∃ p s, hay = p ++ (needle ++ s) := by
  induction hay with
  | nil =>
    simp only [containsSeq, List.isEmpty_iff]
    constructor
    · intro h
      exact ⟨[], [], by simp [h]⟩
    · rintro ⟨p, s, hps⟩
      rcases List.append_eq_nil.mp hps.symm with ⟨hp, hns⟩
      rcases List.append_eq_nil.mp hns with ⟨hn, _⟩
      exact hn
  | cons c cs ih =>
    simp only [containsSeq, Bool.or_eq_true, List.isPrefixOf_iff_prefix, ih]
    constructor
    · rintro (⟨t, ht⟩ | ⟨p, s, hps⟩)
      · exact ⟨[], t, by simp [← ht]⟩
      · exact ⟨c :: p, s, by simp [hps]⟩
    · rintro ⟨p, s, hps⟩
      cases p with
      | nil =>
        exact Or.inl ⟨s, by simpa using hps.symm⟩
      | cons p0 pt =>
        rw [List.cons_append] at hps
        injection hps with h1 h2
        exact Or.inr ⟨pt, s, h2⟩

theorem goodNl_append_iff :
    ∀ (xs ys : List Char), goodNl (xs ++ ys) = true ↔
      (goodNl xs = true ∧ goodNl ys = true ∧ boundaryOk xs ys = true) := by
  intro xs
  induction xs with
  | nil =>
    intro ys
    simp [goodNl, boundaryOk]
  | cons a xs ih =>
    intro ys
    cases xs with
    | nil =>
      cases ys with
      | nil => simp [goodNl, boundaryOk]
      | cons b ys2 =>
        show goodNl (a :: b :: ys2) = true ↔ _
        rw [goodNl]
        simp only [boundaryOk, List.getLast?_singleton, List.head?_cons, goodNl,
          Bool.and_eq_true]
        constructor
        · rintro ⟨h1, h2⟩
          exact ⟨by simp [goodNl], h2, h1⟩
        · rintro ⟨_, h2, h3⟩
          exact ⟨h3, h2⟩
    | cons a2 xs2 =>
      constructor
      · intro h
        have h2 : ((!(a2 = '\n') || okBefore a) && goodNl ((a2 :: xs2) ++ ys)) = true := h
        rw [Bool.and_eq_true] at h2
        obtain ⟨hpair, hrest⟩ := h2
        rw [ih ys] at hrest
        obtain ⟨g1, g2, g3⟩ := hrest
        refine ⟨?_, g2, ?_⟩
        · show ((!(a2 = '\n') || okBefore a) && goodNl (a2 :: xs2)) = true
          rw [Bool.and_eq_true]
          exact ⟨hpair, g1⟩
        · unfold boundaryOk
          rw [List.getLast?_cons_cons]
          unfold boundaryOk at g3
          exact g3
      · rintro ⟨g1, g2, g3⟩
        have g1b : ((!(a2 = '\n') || okBefore a) && goodNl (a2 :: xs2)) = true := g1
        rw [Bool.and_eq_true] at g1b
        obtain ⟨hpair, g1c⟩ := g1b
        show ((!(a2 = '\n') || okBefore a) && goodNl ((a2 :: xs2) ++ ys)) = true
        rw [Bool.and_eq_true]
        refine ⟨hpair, ?_⟩
        rw [ih ys]
        refine ⟨g1c, g2, ?_⟩
        unfold boundaryOk at g3 ⊢
        rw [List.getLast?_cons_cons] at g3
        exact g3

theorem okBefore_of_goodNl {l p s : List Char} {a : Char}
    (hg : goodNl l = true) (hl : l = p ++ (a :: '\n' :: s)) : okBefore a = true := by
  subst hl
  obtain ⟨_, h2, _⟩ := (goodNl_append_iff p (a :: '\n' :: s)).mp hg
  have h3 : ((!(('\n' : Char) = '\n') || okBefore a) && goodNl ('\n' :: s)) = true := h2
  rw [Bool.and_eq_true] at h3
  have h4 := h3.1
  simpa using h4

theorem indent_head_or_nil (lvl : Nat) :
    indentChars lvl = [] ∨ ∃ t, indentChars lvl = ' ' :: t := by
  unfold indentChars
  cases h : 2 * lvl with
  | zero => exact Or.inl rfl
  | succ m => exact Or.inr ⟨List.replicate m ' ', by rw [List.replicate_succ]⟩

theorem serItems_head (lvl : Nat) (x : Json) (xs : JsonList) :
    ∃ c t, serItems lvl (.cons x xs) = c :: t ∧ c ≠ '\n' := by
  obtain ⟨vc, vt, hv, hok⟩ := serValue_head lvl x
  have hvne : vc ≠ '\n' := ne_nl_of_not_ws (okHead_props hok).1
  have hshape : ∃ rest, serItems lvl (.cons x xs) = indentChars lvl ++ (vc :: rest) := by
    cases xs with
    | nil => exact ⟨vt, by rw [serItems, hv]⟩
    | cons y ys =>
      refine ⟨vt ++ ',' :: '\n' :: serItems lvl (.cons y ys), ?_⟩
      rw [serItems, hv]
      simp
  obtain ⟨rest, hr⟩ := hshape
  rcases indent_head_or_nil lvl with hind | ⟨t, hind⟩
  · rw [hr, hind]
    exact ⟨vc, rest, rfl, hvne⟩
  · rw [hr, hind]
    exact ⟨' ', _, rfl, by decide⟩

theorem serItems_last (lvl : Nat) :
    ∀ (x : Json) (xs : JsonList),
      ∃ c, (serItems lvl (.cons x xs)).getLast? = some c ∧ okBefore c = true
  | x, .nil => by
    obtain ⟨c, hc, hok⟩ := serValue_last lvl x
    refine ⟨c, ?_, hok⟩
    rw [serItems, List.getLast?_append, hc]
    rfl
  | x, .cons y ys => by
    obtain ⟨c, hc, hok⟩ := serItems_last lvl y ys
    obtain ⟨zc, zt, hz, _⟩ := serItems_head lvl y ys
    refine ⟨c, ?_, hok⟩
    rw [serItems, List.getLast?_append, hz, List.getLast?_cons_cons, List.getLast?_cons_cons,
      ← hz, hc]
    rfl

theorem serPairs_head (lvl : Nat) (k : List Char) (v : Json) (ps : JsonPairs) :
    ∃ c t, serPairs lvl (.cons k v ps) = c :: t ∧ c ≠ '\n' := by
  have hshape : ∃ rest, serPairs lvl (.cons k v ps) = indentChars lvl ++ ('"' :: rest) := by
    cases ps with
    | nil =>
      refine ⟨escBody k ++ ['"'] ++ (':' :: ' ' :: serValue lvl v), ?_⟩
      rw [serPairs, serStr]
      simp
    | cons k2 v2 qs =>
      refine ⟨escBody k ++ ['"'] ++
        (':' :: ' ' :: serValue lvl v ++ ',' :: '\n' :: serPairs lvl (.cons k2 v2 qs)), ?_⟩
      rw [serPairs, serStr]
      simp
  obtain ⟨rest, hr⟩ := hshape
  rcases indent_head_or_nil lvl with hind | ⟨t, hind⟩
  · rw [hr, hind]
    exact ⟨'"', rest, rfl, by decide⟩
  · rw [hr, hind]
    exact ⟨' ', _, rfl, by decide⟩

theorem serPairs_last (lvl : Nat) :
    ∀ (k : List Char) (v : Json) (ps : JsonPairs),
      ∃ c, (serPairs lvl (.cons k v ps)).getLast? = some c ∧ okBefore c = true
  | k, v, .nil => by
    obtain ⟨c, hc, hok⟩ := serValue_last lvl v
    obtain ⟨vc, vt, hv, _⟩ := serValue_head lvl v
    refine ⟨c, ?_, hok⟩
    rw [serPairs, List.getLast?_append, hv, List.getLast?_cons_cons, List.getLast?_cons_cons,
      ← hv, hc]
    rfl
  | k, v, .cons k2 v2 qs => by
    obtain ⟨c, hc, hok⟩ := serPairs_last lvl k2 v2 qs
    obtain ⟨zc, zt, hz, _⟩ := serPairs_head lvl k2 v2 qs
    refine ⟨c, ?_, hok⟩
    rw [serPairs, List.getLast?_append, hz, List.getLast?_cons_cons, List.getLast?_cons_cons,
      ← hz, hc]
    rfl

/-- Prepending the indent whitespace preserves `goodNl` when the list starts
with a non-newline character. -/
theorem goodNl_indent_append (lvl : Nat) (c : Char) (t : List Char)
    (hl : goodNl (c :: t) = true) (hc : c ≠ '\n') :
    goodNl (indentChars lvl ++ c :: t) = true := by
  rw [goodNl_append_iff]
  refine ⟨goodNl_of_nl_not_mem _ (nl_not_mem_indent lvl), hl, ?_⟩
  unfold boundaryOk
  rw [List.head?_cons]
  cases hli : (indentChars lvl).getLast? with
  | none => rfl
  | some a2 => simp [hc]

/-- A single array item (indent plus serialized value) satisfies `goodNl`. -/
theorem goodNl_item_chunk (lvl : Nat) (x : Json)
    (hv : goodNl (serValue lvl x) = true) :
    goodNl (indentChars lvl ++ serValue lvl x) = true := by
  obtain ⟨c, t, hct, hok⟩ := serValue_head lvl x
  have hcne : c ≠ '\n' := ne_nl_of_not_ws (okHead_props hok).1
  rw [hct] at hv ⊢
  exact goodNl_indent_append lvl c t hv hcne

/-- A single object entry (indent, serialized key, colon, space, serialized
value) satisfies `goodNl`. -/
theorem goodNl_pair_chunk (lvl : Nat) (k : List Char) (v : Json)
    (hv : goodNl (serValue lvl v) = true) :
    goodNl ((indentChars lvl ++ serStr k) ++ (':' :: ' ' :: serValue lvl v)) = true := by
  rw [goodNl_append_iff]
  obtain ⟨c, t, hct, hok⟩ := serValue_head lvl v
  have hcne : c ≠ '\n' := ne_nl_of_not_ws (okHead_props hok).1
  refine ⟨?_, ?_, ?_⟩
  · apply goodNl_of_nl_not_mem
    intro hm
    rcases List.mem_append.mp hm with h | h
    · exact nl_not_mem_indent lvl h
    · exact nl_not_mem_serStr k h
  · have e1 : goodNl (':' :: ' ' :: serValue lvl v) =
        ((!((' ' : Char) = '\n') || okBefore ':') && goodNl (' ' :: serValue lvl v)) := rfl
    have e2 : goodNl (' ' :: serValue lvl v) =
        ((!(c = '\n') || okBefore ' ') && goodNl (serValue lvl v)) := by
      rw [hct]
      rfl
    rw [e1, e2, hv]
    simp [hcne]
  · unfold boundaryOk
    rw [List.head?_cons]
    cases hli : (indentChars lvl ++ serStr k).getLast? with
    | none => rfl
    | some a2 => simp

mutual

theorem goodNl_serValue : ∀ (lvl : Nat) (v : Json), goodNl (serValue lvl v) = true
  | _, .null => rfl
  | _, .bool true => rfl
  | _, .bool false => rfl
  | _, .num n => goodNl_of_nl_not_mem _ (nl_not_mem_serInt n)
  | _, .str s => goodNl_of_nl_not_mem _ (nl_not_mem_serStr s)
  | _, .arr .nil => rfl
  | _, .obj .nil => rfl
  | lvl, .arr (.cons x xs) => by
    have hA : goodNl (serItems (lvl + 1) (.cons x xs)) = true :=
      goodNl_serItems (lvl + 1) (.cons x xs)
    obtain ⟨hc, ht, hh, hhne⟩ := serItems_head (lvl + 1) x xs
    obtain ⟨lc, hlc, hlok⟩ := serItems_last (lvl + 1) x xs
    show goodNl (['[', '\n'] ++
      (serItems (lvl + 1) (.cons x xs) ++ ('\n' :: (indentChars lvl ++ [']'])))) = true
    rw [goodNl_append_iff]
    refine ⟨by decide, ?_, ?_⟩
    · rw [goodNl_append_iff]
      refine ⟨hA, ?_, ?_⟩
      · apply goodNl_cons_of_nl_not_mem
        intro hm
        rcases List.mem_append.mp hm with h | h
        · exact nl_not_mem_indent lvl h
        · exact absurd (List.mem_singleton.mp h) (by decide)
      · unfold boundaryOk
        rw [hlc, List.head?_cons]
        simp [hlok]
    · unfold boundaryOk
      have hhead : (serItems (lvl + 1) (.cons x xs) ++
          ('\n' :: (indentChars lvl ++ [']']))).head? = some hc := by
        rw [hh]
        rfl
      rw [show (['[', '\n'] : List Char).getLast? = some '\n' from rfl, hhead]
      simp [hhne]
  | lvl, .obj (.cons k v ps) => by
    have hA : goodNl (serPairs (lvl + 1) (.cons k v ps)) = true :=
      goodNl_serPairs (lvl + 1) (.cons k v ps)
    obtain ⟨hc, ht, hh, hhne⟩ := serPairs_head (lvl + 1) k v ps
    obtain ⟨lc, hlc, hlok⟩ := serPairs_last (lvl + 1) k v ps
    show goodNl (['{', '\n'] ++
      (serPairs (lvl + 1) (.cons k v ps) ++ ('\n' :: (indentChars lvl ++ ['}'])))) = true
    rw [goodNl_append_iff]
    refine ⟨by decide, ?_, ?_⟩
    · rw [goodNl_append_iff]
      refine ⟨hA, ?_, ?_⟩
      · apply goodNl_cons_of_nl_not_mem
        intro hm
        rcases List.mem_append.mp hm with h | h
        · exact nl_not_mem_indent lvl h
        · exact absurd (List.mem_singleton.mp h) (by decide)
      · unfold boundaryOk
        rw [hlc, List.head?_cons]
        simp [hlok]
    · unfold boundaryOk
      have hhead : (serPairs (lvl + 1) (.cons k v ps) ++
          ('\n' :: (indentChars lvl ++ ['}']))).head? = some hc := by
        rw [hh]
        rfl
      rw [show (['{', '\n'] : List Char).getLast? = some '\n' from rfl, hhead]
      simp [hhne]

theorem goodNl_serItems : ∀ (lvl : Nat) (l : JsonList), goodNl (serItems lvl l) = true
  | _, .nil => rfl
  | lvl, .cons x .nil => by
    show goodNl (indentChars lvl ++ serValue lvl x) = true
    exact goodNl_item_chunk lvl x (goodNl_serValue lvl x)
  | lvl, .cons x (.cons y ys) => by
    have hZ : goodNl (serItems lvl (.cons y ys)) = true := goodNl_serItems lvl (.cons y ys)
    obtain ⟨zc, zt, hz, hzne⟩ := serItems_head lvl y ys
    have h1 : goodNl (indentChars lvl ++ serValue lvl x) = true :=
      goodNl_item_chunk lvl x (goodNl_serValue lvl x)
    show goodNl ((indentChars lvl ++ serValue lvl x) ++
      (',' :: '\n' :: serItems lvl (.cons y ys))) = true
    rw [goodNl_append_iff]
    refine ⟨h1, ?_, ?_⟩
    · have e1 : goodNl (',' :: '\n' :: serItems lvl (.cons y ys)) =
          ((!(('\n' : Char) = '\n') || okBefore ',') &&
            goodNl ('\n' :: serItems lvl (.cons y ys))) := rfl
      have e2 : goodNl ('\n' :: serItems lvl (.cons y ys)) =
          ((!(zc = '\n') || okBefore '\n') && goodNl (serItems lvl (.cons y ys))) := by
        rw [hz]
        rfl
      have hob : okBefore (',' : Char) = true := by decide
      rw [e1, e2, hZ]
      simp [hzne, hob]
    · unfold boundaryOk
      rw [List.head?_cons]
      cases hli : (indentChars lvl ++ serValue lvl x).getLast? with
      | none => rfl
      | some a2 => simp

theorem goodNl_serPairs : ∀ (lvl : Nat) (ps : JsonPairs), goodNl (serPairs lvl ps) = true
  | _, .nil => rfl
  | lvl, .cons k v .nil => by
    show goodNl ((indentChars lvl ++ serStr k) ++ (':' :: ' ' :: serValue lvl v)) = true
    exact goodNl_pair_chunk lvl k v (goodNl_serValue lvl v)
  | lvl, .cons k v (.cons k2 v2 qs) => by
    have hZ : goodNl (serPairs lvl (.cons k2 v2 qs)) = true :=
      goodNl_serPairs lvl (.cons k2 v2 qs)
    obtain ⟨zc, zt, hz, hzne⟩ := serPairs_head lvl k2 v2 qs
    have h1 : goodNl ((indentChars lvl ++ serStr k) ++ (':' :: ' ' :: serValue lvl v)) = true :=
      goodNl_pair_chunk lvl k v (goodNl_serValue lvl v)
    show goodNl (((indentChars lvl ++ serStr k) ++ (':' :: ' ' :: serValue lvl v)) ++
      (',' :: '\n' :: serPairs lvl (.cons k2 v2 qs))) = true
    rw [goodNl_append_iff]
    refine ⟨h1, ?_, ?_⟩
    · have e1 : goodNl (',' :: '\n' :: serPairs lvl (.cons k2 v2 qs)) =
          ((!(('\n' : Char) = '\n') || okBefore ',') &&
            goodNl ('\n' :: serPairs lvl (.cons k2 v2 qs))) := rfl
      have e2 : goodNl ('\n' :: serPairs lvl (.cons k2 v2 qs)) =
          ((!(zc = '\n') || okBefore '\n') && goodNl (serPairs lvl (.cons k2 v2 qs))) := by
        rw [hz]
        rfl
      have hob : okBefore (',' : Char) = true := by decide
      rw [e1, e2, hZ]
      simp [hzne, hob]
    · unfold boundaryOk
      rw [List.head?_cons]
      cases hli : ((indentChars lvl ++ serStr k) ++
          (':' :: ' ' :: serValue lvl v)).getLast? with
      | none => rfl
      | some a2 => simp

end

theorem markdownHit_serValue (lvl : Nat) (v : Json) : markdownHit (serValue lvl v) = false := by
  have hg := goodNl_serValue lvl v
  have h1 : containsSeq ("```json\n".toList) (serValue lvl v) = false := by
    by_contra hcon
    rw [Bool.not_eq_false, containsSeq_iff] at hcon
    obtain ⟨p, s, hps⟩ := hcon
    have hre : serValue lvl v = (p ++ ['`', '`', '`', 'j', 's', 'o']) ++ ('n' :: '\n' :: s) := by
      rw [hps]
      simp
    have := okBefore_of_goodNl hg hre
    exact absurd this (by decide)
  have h2 : containsSeq ("```\n".toList) (serValue lvl v) = false := by
    by_contra hcon
    rw [Bool.not_eq_false, containsSeq_iff] at hcon
    obtain ⟨p, s, hps⟩ := hcon
    have hre : serValue lvl v = (p ++ ['`', '`']) ++ ('`' :: '\n' :: s) := by
      rw [hps]
      simp
    have := okBefore_of_goodNl hg hre
    exact absurd this (by decide)
  rw [markdownHit]
  rw [show ("```json\n".toList) = ['`', '`', '`', 'j', 's', 'o', 'n', '\n'] from rfl] at h1
  rw [show ("```\n".toList) = ['`', '`', '`', '\n'] from rfl] at h2
  simp only [h1, h2]
  rfl

/-! ### Parser/serializer roundtrip: fuel and shape lemmas -/

theorem escBody_length : ∀ s : List Char, s.length ≤ (escBody s).length := by
  intro s
  induction s with
  | nil => simp [escBody]
  | cons c cs ih =>
    obtain ⟨d, t, hdt, _⟩ := escChar_head c
    rw [escBody, hdt]
    simp only [List.length_cons, List.cons_append, List.length_append]
    omega

/-- Appending the separators-and-closer text to a serialized item list
rewrites it into head-value-plus-`itemsSuffix` form. -/
theorem serItems_unroll (lvl pad : Nat) :
    ∀ (l : JsonList) (y : Json) (rest : List Char),
      serItems lvl (.cons y l) ++ ('\n' :: (indentChars pad ++ ']' :: rest)) =
        indentChars lvl ++ (serValue lvl y ++ itemsSuffix lvl pad l rest)
  | .nil, y, rest => by
    show (indentChars lvl ++ serValue lvl y) ++ ('\n' :: (indentChars pad ++ ']' :: rest)) =
      indentChars lvl ++ (serValue lvl y ++ ('\n' :: (indentChars pad ++ ']' :: rest)))
    simp
  | .cons z zs, y, rest => by
    show (indentChars lvl ++ serValue lvl y ++ ',' :: '\n' :: serItems lvl (.cons z zs)) ++
        ('\n' :: (indentChars pad ++ ']' :: rest)) =
      indentChars lvl ++ (serValue lvl y ++
        ',' :: '\n' :: (indentChars lvl ++ (serValue lvl z ++ itemsSuffix lvl pad zs rest)))
    rw [← serItems_unroll lvl pad zs z rest]
    simp

/-- Appending the separators-and-closer text to a serialized entry list
rewrites it into key-colon-value-plus-`pairsSuffix` form. -/
theorem serPairs_unroll (lvl pad : Nat) :
    ∀ (ps : JsonPairs) (k : List Char) (v : Json) (rest : List Char),
      serPairs lvl (.cons k v ps) ++ ('\n' :: (indentChars pad ++ '}' :: rest)) =
        indentChars lvl ++
          (serStr k ++ ':' :: ' ' :: (serValue lvl v ++ pairsSuffix lvl pad ps rest))
  | .nil, k, v, rest => by
    show (indentChars lvl ++ serStr k ++ ':' :: ' ' :: serValue lvl v) ++
        ('\n' :: (indentChars pad ++ '}' :: rest)) =
      indentChars lvl ++
        (serStr k ++ ':' :: ' ' :: (serValue lvl v ++ ('\n' :: (indentChars pad ++ '}' :: rest))))
    simp
  | .cons k2 v2 qs, k, v, rest => by
    show (indentChars lvl ++ serStr k ++ ':' :: ' ' :: serValue lvl v ++
        ',' :: '\n' :: serPairs lvl (.cons k2 v2 qs)) ++
        ('\n' :: (indentChars pad ++ '}' :: rest)) =
      indentChars lvl ++
        (serStr k ++ ':' :: ' ' ::
          (serValue lvl v ++
            ',' :: '\n' ::
              (indentChars lvl ++
                (serStr k2 ++ ':' :: ' ' :: (serValue lvl v2 ++ pairsSuffix lvl pad qs rest)))))
    rw [← serPairs_unroll lvl pad qs k2 v2 rest]
    simp

theorem numSafeB_itemsSuffix (lvl pad : Nat) (l : JsonList) (rest : List Char) :
    numSafeB (itemsSuffix lvl pad l rest) = true := by
  cases l <;> rfl

theorem numSafeB_pairsSuffix (lvl pad : Nat) (ps : JsonPairs) (rest : List Char) :
    numSafeB (pairsSuffix lvl pad ps rest) = true := by
  cases ps <;> rfl

theorem skipWs_serValue_append (lvl : Nat) (v : Json) (t : List Char) :
    skipWs (serValue lvl v ++ t) = serValue lvl v ++ t := by
  obtain ⟨c, t2, hct, hok⟩ := serValue_head lvl v
  rw [hct, List.cons_append, skipWs_cons_of_not_ws (okHead_props hok).1]

theorem skipWs_serStr_append (k : List Char) (t : List Char) :
    skipWs (serStr k ++ t) = serStr k ++ t := by
  rw [serStr, List.cons_append, skipWs_cons_of_not_ws (by decide)]

theorem ncV_pos : ∀ v : Json, 1 ≤ ncV v := by
  intro v
  cases v with
  | null => exact le_refl 1
  | bool b => exact le_refl 1
  | num n => exact le_refl 1
  | str s => exact le_refl 1
  | arr l => cases l with
    | nil => exact le_refl 1
    | cons x xs => rw [ncV]; omega
  | obj ps => cases ps with
    | nil => exact le_refl 1
    | cons k v2 qs => rw [ncV]; omega

mutual

/-- The parser fuel measure of a value is at most its serialized length. -/
theorem ncV_le_len : ∀ (lvl : Nat) (v : Json), ncV v ≤ (serValue lvl v).length
  | lvl, .null => by
    show 1 ≤ ("null".toList).length
    decide
  | lvl, .bool true => by
    show 1 ≤ ("true".toList).length
    decide
  | lvl, .bool false => by
    show 1 ≤ ("false".toList).length
    decide
  | _, .num n => by
    rw [ncV]
    obtain ⟨c, t, hct, _⟩ := serInt_head n
    show 1 ≤ (serInt n).length
    rw [hct]
    simp
  | _, .str s => by
    rw [ncV]
    show 1 ≤ (serStr s).length
    rw [serStr]
    simp
  | _, .arr .nil => by simp [ncV, serValue]
  | lvl, .arr (.cons x xs) => by
    have h := ncItems_le_len (lvl + 1) (.cons x xs)
    rw [ncV]
    show 1 + ncItems (.cons x xs) ≤
      ('[' :: '\n' ::
        (serItems (lvl + 1) (.cons x xs) ++ '\n' :: (indentChars lvl ++ [']']))).length
    simp only [List.length_cons, List.length_append]
    omega
  | _, .obj .nil => by simp [ncV, serValue]
  | lvl, .obj (.cons k v ps) => by
    have h := ncPairs_le_len (lvl + 1) (.cons k v ps)
    rw [ncV]
    show 1 + ncPairs (.cons k v ps) ≤
      ('{' :: '\n' ::
        (serPairs (lvl + 1) (.cons k v ps) ++ '\n' :: (indentChars lvl ++ ['}']))).length
    simp only [List.length_cons, List.length_append]
    omega

/-- The parser fuel measure of an item list is at most its serialized
length plus one. -/
theorem ncItems_le_len : ∀ (lvl : Nat) (l : JsonList), ncItems l ≤ (serItems lvl l).length + 1
  | _, .nil => by simp [ncItems]
  | lvl, .cons x .nil => by
    have h := ncV_le_len lvl x
    rw [ncItems, ncItems]
    show 1 + ncV x + 0 ≤ (indentChars lvl ++ serValue lvl x).length + 1
    simp only [List.length_append]
    omega
  | lvl, .cons x (.cons y ys) => by
    have h1 := ncV_le_len lvl x
    have h2 := ncItems_le_len lvl (.cons y ys)
    rw [ncItems]
    show 1 + ncV x + ncItems (.cons y ys) ≤
      (indentChars lvl ++ serValue lvl x ++ ',' :: '\n' :: serItems lvl (.cons y ys)).length + 1
    simp only [List.length_append, List.length_cons]
    omega

/-- The parser fuel measure of an entry list is at most its serialized
length plus one. -/
theorem ncPairs_le_len : ∀ (lvl : Nat) (ps : JsonPairs),
    ncPairs ps ≤ (serPairs lvl ps).length + 1
  | _, .nil => by simp [ncPairs]
  | lvl, .cons k v .nil => by
    have h := ncV_le_len lvl v
    rw [ncPairs, ncPairs]
    show 1 + ncV v + 0 ≤
      (indentChars lvl ++ serStr k ++ ':' :: ' ' :: serValue lvl v).length + 1
    simp only [List.length_append, List.length_cons]
    omega
  | lvl, .cons k v (.cons k2 v2 qs) => by
    have h1 := ncV_le_len lvl v
    have h2 := ncPairs_le_len lvl (.cons k2 v2 qs)
    rw [ncPairs]
    show 1 + ncV v + ncPairs (.cons k2 v2 qs) ≤
      (indentChars lvl ++ serStr k ++ ':' :: ' ' :: serValue lvl v ++
        ',' :: '\n' :: serPairs lvl (.cons k2 v2 qs)).length + 1
    simp only [List.length_append, List.length_cons]
    omega

end

/-- The head of a serialized integer, with the inequalities the parser
dispatch needs. -/
theorem serInt_head_ne (n : Int) :
    ∃ c t, serInt n = c :: t ∧ (c = '-' ∨ isDigitCh c = true) ∧
      ¬(c = '{') ∧ ¬(c = '[') ∧ ¬(c = '"') ∧ ¬(c = 't') ∧ ¬(c = 'f') ∧ ¬(c = 'n') := by
  obtain ⟨c, t, hct, hc⟩ := serInt_head n
  refine ⟨c, t, hct, hc, ?_, ?_, ?_, ?_, ?_, ?_⟩
  all_goals
    rcases hc with h | h
  all_goals try (subst h; decide)
  all_goals obtain ⟨ha, hb⟩ := isDigitCh_toNat h
  all_goals apply char_ne_of_toNat_ne
  · rw [show ('{').toNat = 123 from rfl]; omega
  · rw [show ('[').toNat = 91 from rfl]; omega
  · rw [show ('"').toNat = 34 from rfl]; omega
  · rw [show ('t').toNat = 116 from rfl]; omega
  · rw [show ('f').toNat = 102 from rfl]; omega
  · rw [show ('n').toNat = 110 from rfl]; omega

/-- The fueled parser inverts the serializer: parsing a serialized value
followed by trailing text that cannot extend a number token yields the
value and the trailing text, given fuel at least the value's measure; the
item- and entry-list parsers likewise invert the serialized list forms. -/
theorem parse_ser_rt : ∀ fuel : Nat,
    (∀ (lvl : Nat) (v : Json) (rest : List Char), ncV v ≤ fuel → numSafeB rest = true →
      parseValue fuel (serValue lvl v ++ rest) = some (v, rest)) ∧
    (∀ (lvl pad : Nat) (x : Json) (l : JsonList) (rest : List Char),
      ncItems (.cons x l) ≤ fuel →
      parseItems fuel (serValue lvl x ++ itemsSuffix lvl pad l rest) = some (.cons x l, rest)) ∧
    (∀ (lvl pad : Nat) (k : List Char) (v : Json) (ps : JsonPairs) (rest : List Char),
      ncPairs (.cons k v ps) ≤ fuel →
      parsePairs fuel
          (serStr k ++ ':' :: ' ' :: (serValue lvl v ++ pairsSuffix lvl pad ps rest)) =
        some (.cons k v ps, rest)) := by
  intro fuel
  induction fuel with
  | zero =>
    refine ⟨?_, ?_, ?_⟩
    · intro lvl v rest hf _
      exact absurd hf (by have := ncV_pos v; omega)
    · intro lvl pad x l rest hf
      rw [ncItems] at hf
      exact absurd hf (by omega)
    · intro lvl pad k v ps rest hf
      rw [ncPairs] at hf
      exact absurd hf (by omega)
  | succ fuel ih =>
    obtain ⟨ihV, ihI, ihP⟩ := ih
    refine ⟨?_, ?_, ?_⟩
    · intro lvl v rest hf hsafe
      cases v with
      | null => rfl
      | bool b =>
        cases b with
        | true => rfl
        | false => rfl
      | num n =>
        obtain ⟨c, t, hct, hc, h1, h2, h3, h4, h5, h6⟩ := serInt_head_ne n
        show parseValue (fuel + 1) (serInt n ++ rest) = some (.num n, rest)
        rw [hct, List.cons_append, parseValue, if_neg h1, if_neg h2, if_neg h3, if_neg h4,
          if_neg h5, if_neg h6, if_pos (show c = '-' ∨ isDigitCh c = true from hc),
          ← List.cons_append, ← hct, parseNumber_serInt hsafe]
        rfl
      | str s =>
        show parseValue (fuel + 1) (serStr s ++ rest) = some (.str s, rest)
        rw [serStr, List.cons_append, parseValue, if_neg (by decide : ¬('"' : Char) = '{'),
          if_neg (by decide : ¬('"' : Char) = '['), if_pos rfl,
          show (escBody s ++ ['"']) ++ rest = escBody s ++ ('"' :: rest) from by simp]
        have hlen : s.length < (escBody s ++ ('"' :: rest)).length + 1 := by
          have := escBody_length s
          simp only [List.length_append, List.length_cons]
          omega
        rw [parseStringBody_escBody s _ rest hlen]
        rfl
      | arr l =>
        cases l with
        | nil => rfl
        | cons x xs =>
          have hbody : (serItems (lvl + 1) (.cons x xs) ++
                '\n' :: (indentChars lvl ++ [']'])) ++ rest =
              indentChars (lvl + 1) ++
                (serValue (lvl + 1) x ++ itemsSuffix (lvl + 1) lvl xs rest) := by
            rw [← serItems_unroll (lvl + 1) lvl xs x rest]
            simp
          have hfI : ncItems (.cons x xs) ≤ fuel := by
            rw [ncV] at hf
            omega
          have hskip : skipWs ('\n' ::
              (indentChars (lvl + 1) ++
                (serValue (lvl + 1) x ++ itemsSuffix (lvl + 1) lvl xs rest))) =
              serValue (lvl + 1) x ++ itemsSuffix (lvl + 1) lvl xs rest := by
            rw [skipWs_cons_of_ws (by decide), skipWs_indent, skipWs_serValue_append]
          have hitems := ihI (lvl + 1) lvl x xs rest hfI
          show parseValue (fuel + 1)
              (('[' :: '\n' ::
                (serItems (lvl + 1) (.cons x xs) ++
                  '\n' :: (indentChars lvl ++ [']']))) ++ rest) =
            some (.arr (.cons x xs), rest)
          rw [List.cons_append, List.cons_append, hbody, parseValue,
            if_neg (by decide : ¬('[' : Char) = '{'), if_pos rfl, hskip]
          obtain ⟨hc, ht, hh, hok⟩ := serValue_head (lvl + 1) x
          have hcne : hc ≠ ']' := (okHead_props hok).2.1
          rw [hh, List.cons_append]
          split
          · next r2 heq =>
            simp only [List.cons.injEq] at heq
            exact absurd heq.1 hcne
          · rw [← List.cons_append, ← hh, hitems]
      | obj ps =>
        cases ps with
        | nil => rfl
        | cons k v2 qs =>
          have hbody : (serPairs (lvl + 1) (.cons k v2 qs) ++
                '\n' :: (indentChars lvl ++ ['}'])) ++ rest =
              indentChars (lvl + 1) ++
                (serStr k ++ ':' :: ' ' ::
                  (serValue (lvl + 1) v2 ++ pairsSuffix (lvl + 1) lvl qs rest)) := by
            rw [← serPairs_unroll (lvl + 1) lvl qs k v2 rest]
            simp
          have hfP : ncPairs (.cons k v2 qs) ≤ fuel := by
            rw [ncV] at hf
            omega
          have hskip : skipWs ('\n' ::
              (indentChars (lvl + 1) ++
                (serStr k ++ ':' :: ' ' ::
                  (serValue (lvl + 1) v2 ++ pairsSuffix (lvl + 1) lvl qs rest)))) =
              serStr k ++ ':' :: ' ' ::
                (serValue (lvl + 1) v2 ++ pairsSuffix (lvl + 1) lvl qs rest) := by
            rw [skipWs_cons_of_ws (by decide), skipWs_indent, skipWs_serStr_append]
          have hpairs := ihP (lvl + 1) lvl k v2 qs rest hfP
          show parseValue (fuel + 1)
              (('{' :: '\n' ::
                (serPairs (lvl + 1) (.cons k v2 qs) ++
                  '\n' :: (indentChars lvl ++ ['}']))) ++ rest) =
            some (.obj (.cons k v2 qs), rest)
          rw [List.cons_append, List.cons_append, hbody, parseValue, if_pos rfl, hskip]
          rw [serStr, List.cons_append]
          split
          · next r2 heq =>
            simp only [List.cons.injEq] at heq
            exact absurd heq.1 (by decide)
          · rw [← List.cons_append, ← serStr, hpairs]
    · intro lvl pad x l rest hf
      have hfx : ncV x ≤ fuel := by rw [ncItems] at hf; omega
      have hval := ihV lvl x (itemsSuffix lvl pad l rest) hfx (numSafeB_itemsSuffix lvl pad l rest)
      rw [parseItems, hval]
      cases l with
      | nil =>
        have hsk : skipWs (itemsSuffix lvl pad JsonList.nil rest) = ']' :: rest := by
          rw [itemsSuffix, skipWs_cons_of_ws (by decide), skipWs_indent,
            skipWs_cons_of_not_ws (by decide)]
        dsimp only
        rw [hsk]
        rfl
      | cons y ys =>
        have hfy : ncItems (.cons y ys) ≤ fuel := by rw [ncItems] at hf; omega
        have hnext := ihI lvl pad y ys rest hfy
        have hsk : skipWs (itemsSuffix lvl pad (JsonList.cons y ys) rest) =
            ',' :: '\n' ::
              (indentChars lvl ++ (serValue lvl y ++ itemsSuffix lvl pad ys rest)) := by
          rw [itemsSuffix]
          exact skipWs_cons_of_not_ws (by decide) _
        have hsk2 : skipWs ('\n' ::
            (indentChars lvl ++ (serValue lvl y ++ itemsSuffix lvl pad ys rest))) =
            serValue lvl y ++ itemsSuffix lvl pad ys rest := by
          rw [skipWs_cons_of_ws (by decide), skipWs_indent, skipWs_serValue_append]
        dsimp only
        rw [hsk]
        split
        · next r2 heq =>
          simp at heq
        · next r2 heq =>
          simp only [List.cons.injEq] at heq
          rw [← heq.2, hsk2, hnext]
        · next h1 h2 =>
          have hfalse : False := by
            simpa using
              h2 ('\n' :: (indentChars lvl ++ (serValue lvl y ++ itemsSuffix lvl pad ys rest)))
          exact hfalse.elim
    · intro lvl pad k v ps rest hf
      have hfv : ncV v ≤ fuel := by rw [ncPairs] at hf; omega
      have hsb : parseStringBody
          (((escBody k ++ ['"']) ++
            ':' :: ' ' :: (serValue lvl v ++ pairsSuffix lvl pad ps rest)).length + 1)
          ((escBody k ++ ['"']) ++
            ':' :: ' ' :: (serValue lvl v ++ pairsSuffix lvl pad ps rest)) =
          some (k, ':' :: ' ' :: (serValue lvl v ++ pairsSuffix lvl pad ps rest)) := by
        rw [show (escBody k ++ ['"']) ++
              ':' :: ' ' :: (serValue lvl v ++ pairsSuffix lvl pad ps rest) =
            escBody k ++
              ('"' :: (':' :: ' ' :: (serValue lvl v ++ pairsSuffix lvl pad ps rest)))
          from by simp]
        refine parseStringBody_escBody k _ _ ?_
        have := escBody_length k
        simp only [List.length_append, List.length_cons]
        omega
      have hval := ihV lvl v (pairsSuffix lvl pad ps rest) hfv (numSafeB_pairsSuffix lvl pad ps rest)
      show parsePairs (fuel + 1)
          (('"' :: (escBody k ++ ['"'])) ++
            ':' :: ' ' :: (serValue lvl v ++ pairsSuffix lvl pad ps rest)) =
        some (.cons k v ps, rest)
      rw [List.cons_append, parsePairs, hsb]
      dsimp only
      have hsk0 : skipWs (':' :: ' ' :: (serValue lvl v ++ pairsSuffix lvl pad ps rest)) =
          ':' :: ' ' :: (serValue lvl v ++ pairsSuffix lvl pad ps rest) :=
        skipWs_cons_of_not_ws (by decide) _
      have hsk1 : skipWs (' ' :: (serValue lvl v ++ pairsSuffix lvl pad ps rest)) =
          serValue lvl v ++ pairsSuffix lvl pad ps rest := by
        rw [skipWs_cons_of_ws (by decide), skipWs_serValue_append]
      rw [hsk0]
      split
      · next r2 heq =>
        simp only [List.cons.injEq] at heq
        rw [← heq.2, hsk1, hval]
        dsimp only
        cases ps with
        | nil =>
          have hsk2 : skipWs (pairsSuffix lvl pad JsonPairs.nil rest) = '}' :: rest := by
            rw [pairsSuffix, skipWs_cons_of_ws (by decide), skipWs_indent,
              skipWs_cons_of_not_ws (by decide)]
          rw [hsk2]
          rfl
        | cons k2 v2 qs =>
          have hfq : ncPairs (.cons k2 v2 qs) ≤ fuel := by rw [ncPairs] at hf; omega
          have hnext := ihP lvl pad k2 v2 qs rest hfq
          have hsk2 : skipWs (pairsSuffix lvl pad (JsonPairs.cons k2 v2 qs) rest) =
              ',' :: '\n' ::
                (indentChars lvl ++
                  (serStr k2 ++ ':' :: ' ' ::
                    (serValue lvl v2 ++ pairsSuffix lvl pad qs rest))) := by
            rw [pairsSuffix]
            exact skipWs_cons_of_not_ws (by decide) _
          have hsk3 : skipWs ('\n' ::
              (indentChars lvl ++
                (serStr k2 ++ ':' :: ' ' ::
                  (serValue lvl v2 ++ pairsSuffix lvl pad qs rest)))) =
              serStr k2 ++ ':' :: ' ' ::
                (serValue lvl v2 ++ pairsSuffix lvl pad qs rest) := by
            rw [skipWs_cons_of_ws (by decide), skipWs_indent, skipWs_serStr_append]
          rw [hsk2]
          split
          · next r4 heq2 =>
            simp at heq2
          · next r4 heq2 =>
            simp only [List.cons.injEq] at heq2
            rw [← heq2.2, hsk3, hnext]
          · next h1 h2 =>
            have hfalse : False := by
              simpa using
                h2 ('\n' ::
                  (indentChars lvl ++
                    (serStr k2 ++ ':' :: ' ' ::
                      (serValue lvl v2 ++ pairsSuffix lvl pad qs rest))))
            exact hfalse.elim
      · next h1 =>
        have hfalse : False := by
          simpa using h1 (' ' :: (serValue lvl v ++ pairsSuffix lvl pad ps rest))
        exact hfalse.elim

/-- `json.loads` inverts `json.dumps(·, indent=2)`. -/
theorem loads_serValue (v : Json) : loads (serValue 0 v) = some v := by
  have hfuel : ncV v ≤ (serValue 0 v).length + 1 := by
    have := ncV_le_len 0 v
    omega
  have h := (parse_ser_rt ((serValue 0 v).length + 1)).1 0 v [] hfuel rfl
  rw [List.append_nil] at h
  have hss : skipWs (serValue 0 v) = serValue 0 v := by
    have := skipWs_serValue_append 0 v []
    rwa [List.append_nil] at this
  rw [loads, hss, h]
  rfl

/-! ### Parser consumption: the remainder is a suffix of the input -/

theorem skipWs_suffix (cs : List Char) : skipWs cs <:+ cs := List.dropWhile_suffix _

theorem take4hex_suffix : ∀ {cs : List Char} {n : Nat} {r : List Char},
    take4hex cs = some (n, r) → r <:+ cs := by
  intro cs n r h
  rw [take4hex.eq_def] at h
  split at h
  · rename_i a b c d r2
    split at h
    · rename_i m hm
      simp only [Option.some.injEq, Prod.mk.injEq] at h
      rw [← h.2]
      exact ⟨[a, b, c, d], rfl⟩
    · exact absurd h (by simp)
  · exact absurd h (by simp)

theorem decodeLow_suffix : ∀ {n : Nat} {cs : List Char} {c : Char} {r : List Char},
    decodeLow n cs = some (c, r) → r <:+ cs := by
  intro n cs c r h
  rw [decodeLow.eq_def] at h
  split at h
  · rename_i s1 s2 r0
    split at h
    · split at h
      · rename_i m r2 hm
        split at h
        · simp only [Option.some.injEq, Prod.mk.injEq] at h
          rw [← h.2]
          exact (take4hex_suffix hm).trans ⟨[s1, s2], rfl⟩
        · exact absurd h (by simp)
      · exact absurd h (by simp)
    · exact absurd h (by simp)
  · exact absurd h (by simp)

theorem decodeU_suffix : ∀ {cs : List Char} {c : Char} {r : List Char},
    decodeU cs = some (c, r) → r <:+ cs := by
  intro cs c r h
  rw [decodeU] at h
  split at h
  · rename_i n r0 hm
    split at h
    · simp only [Option.some.injEq, Prod.mk.injEq] at h
      rw [← h.2]
      exact take4hex_suffix hm
    · split at h
      · exact (decodeLow_suffix h).trans (take4hex_suffix hm)
      · exact absurd h (by simp)
  · exact absurd h (by simp)

theorem decodeEsc_suffix : ∀ {cs : List Char} {c : Char} {r : List Char},
    decodeEsc cs = some (c, r) → r <:+ cs := by
  intro cs c r h
  rw [decodeEsc.eq_def] at h
  split at h
  · exact absurd h (by simp)
  · rename_i e cs2
    split at h
    · simp only [Option.some.injEq, Prod.mk.injEq] at h
      rw [← h.2]
      exact ⟨[e], rfl⟩
    · split at h
      · exact (decodeU_suffix h).trans ⟨[e], rfl⟩
      · exact absurd h (by simp)

theorem decodeOne_suffix : ∀ {cs : List Char} {c : Char} {r : List Char},
    decodeOne cs = some (c, r) → r <:+ cs := by
  intro cs c r h
  rw [decodeOne.eq_def] at h
  split at h
  · exact absurd h (by simp)
  · rename_i c0 cs1
    split at h
    · exact (decodeEsc_suffix h).trans ⟨[c0], rfl⟩
    · split at h
      · simp only [Option.some.injEq, Prod.mk.injEq] at h
        rw [← h.2]
        exact ⟨[c0], rfl⟩
      · exact absurd h (by simp)

theorem parseStringBody_suffix : ∀ (fuel : Nat) {cs : List Char} {s r : List Char},
    parseStringBody fuel cs = some (s, r) → r <:+ cs := by
  intro fuel
  induction fuel with
  | zero =>
    intro cs s r h
    exact absurd h (by rw [show parseStringBody 0 cs = none from rfl]; simp)
  | succ fuel ih =>
    intro cs s r h
    cases cs with
    | nil => exact absurd h (by rw [show parseStringBody (fuel + 1) [] = none from rfl]; simp)
    | cons c cs1 =>
      rw [parseStringBody] at h
      split at h
      · simp only [Option.some.injEq, Prod.mk.injEq] at h
        rw [← h.2]
        exact ⟨[c], rfl⟩
      · split at h
        · rename_i d r0 heq
          cases hps : parseStringBody fuel r0 with
          | none => rw [hps] at h; exact absurd h (by simp)
          | some pr =>
            obtain ⟨s1, r1⟩ := pr
            rw [hps] at h
            simp only [Option.map_some, Option.some.injEq, Prod.mk.injEq] at h
            rw [← h.2]
            exact (ih hps).trans (decodeOne_suffix heq)
        · exact absurd h (by simp)

theorem checkNoFloat_rest : ∀ {n : Nat} {r0 : List Char} {m : Nat} {r : List Char},
    checkNoFloat n r0 = some (m, r) → r = r0 := by
  intro n r0 m r h
  rw [checkNoFloat.eq_def] at h
  split at h
  · split at h
    · exact absurd h (by simp)
    · simp only [Option.some.injEq, Prod.mk.injEq] at h
      exact h.2.symm
  · simp only [Option.some.injEq, Prod.mk.injEq] at h
    exact h.2.symm

theorem parseNumAux_suffix : ∀ {cs : List Char} {m : Nat} {r : List Char},
    parseNumAux cs = some (m, r) → r <:+ cs := by
  intro cs m r h
  rw [parseNumAux.eq_def] at h
  split at h
  · exact absurd h (by simp)
  · rename_i c rest
    split at h
    · rw [checkNoFloat_rest h]
      exact ⟨[c], rfl⟩
    · split at h
      · rw [checkNoFloat_rest h]
        exact (List.dropWhile_suffix _).trans ⟨[c], rfl⟩
      · exact absurd h (by simp)

theorem parseNumber_suffix : ∀ {cs : List Char} {m : Int} {r : List Char},
    parseNumber cs = some (m, r) → r <:+ cs := by
  intro cs m r h
  rw [parseNumber.eq_def] at h
  split at h
  · exact absurd h (by simp)
  · rename_i c rest
    split at h
    · cases hpa : parseNumAux rest with
      | none => rw [hpa] at h; exact absurd h (by simp)
      | some pr =>
        obtain ⟨m1, r1⟩ := pr
        rw [hpa] at h
        simp only [Option.map_some, Option.some.injEq, Prod.mk.injEq] at h
        rw [← h.2]
        exact (parseNumAux_suffix hpa).trans ⟨[c], rfl⟩
    · cases hpa : parseNumAux (c :: rest) with
      | none => rw [hpa] at h; exact absurd h (by simp)
      | some pr =>
        obtain ⟨m1, r1⟩ := pr
        rw [hpa] at h
        simp only [Option.map_some, Option.some.injEq, Prod.mk.injEq] at h
        rw [← h.2]
        exact parseNumAux_suffix hpa

theorem parseTrue_suffix : ∀ {cs : List Char} {v : Json} {r : List Char},
    parseTrue cs = some (v, r) → r <:+ cs := by
  intro cs v r h
  rw [parseTrue.eq_def] at h
  split at h
  · simp only [Option.some.injEq, Prod.mk.injEq] at h
    rw [← h.2]
    exact ⟨['r', 'u', 'e'], rfl⟩
  · exact absurd h (by simp)

theorem parseFalse_suffix : ∀ {cs : List Char} {v : Json} {r : List Char},
    parseFalse cs = some (v, r) → r <:+ cs := by
  intro cs v r h
  rw [parseFalse.eq_def] at h
  split at h
  · simp only [Option.some.injEq, Prod.mk.injEq] at h
    rw [← h.2]
    exact ⟨['a', 'l', 's', 'e'], rfl⟩
  · exact absurd h (by simp)

theorem parseNull_suffix : ∀ {cs : List Char} {v : Json} {r : List Char},
    parseNull cs = some (v, r) → r <:+ cs := by
  intro cs v r h
  rw [parseNull.eq_def] at h
  split at h
  · simp only [Option.some.injEq, Prod.mk.injEq] at h
    rw [← h.2]
    exact ⟨['u', 'l', 'l'], rfl⟩
  · exact absurd h (by simp)

/-- The entry parser rejects input that does not start with a quote. -/
theorem parsePairs_non_quote : ∀ {fuel : Nat} {c : Char} {rest : List Char}, ¬(c = '"') →
    parsePairs (fuel + 1) (c :: rest) = none := by
  intro fuel c rest hc
  rw [parsePairs.eq_def]
  split
  · rfl
  · split
    · rename_i rest2 heq
      simp only [List.cons.injEq] at heq
      exact absurd heq.1 hc
    · rfl

/-- The remainder a successful parse returns is a suffix of the input; for
the item and entry parsers the remainder moreover directly follows the
closing bracket or brace. -/
theorem parse_suffix : ∀ fuel : Nat,
    (∀ {cs : List Char} {v : Json} {r : List Char},
      parseValue fuel cs = some (v, r) → r <:+ cs) ∧
    (∀ {cs : List Char} {l : JsonList} {r : List Char},
      parseItems fuel cs = some (l, r) → ']' :: r <:+ cs) ∧
    (∀ {cs : List Char} {ps : JsonPairs} {r : List Char},
      parsePairs fuel cs = some (ps, r) → '}' :: r <:+ cs) := by
  intro fuel
  induction fuel with
  | zero =>
    refine ⟨?_, ?_, ?_⟩ <;> intro cs x r h <;> exact absurd h (by
      first
      | rw [show parseValue 0 cs = none from rfl]; simp
      | rw [show parseItems 0 cs = none from rfl]; simp
      | rw [show parsePairs 0 cs = none from rfl]; simp)
  | succ fuel ih =>
    obtain ⟨ihV, ihI, ihP⟩ := ih
    refine ⟨?_, ?_, ?_⟩
    · intro cs v r h
      cases cs with
      | nil => exact absurd h (by rw [show parseValue (fuel + 1) [] = none from rfl]; simp)
      | cons c rest =>
        rw [parseValue] at h
        split_ifs at h
        · split at h
          · rename_i r2 heq
            simp only [Option.some.injEq, Prod.mk.injEq] at h
            rw [← h.2]
            have h1 : '}' :: r2 <:+ rest := heq ▸ skipWs_suffix rest
            exact ((List.suffix_cons '}' r2).trans h1).trans (List.suffix_cons c rest)
          · split at h
            · rename_i ps r2 heq2
              simp only [Option.some.injEq, Prod.mk.injEq] at h
              rw [← h.2]
              have h1 : '}' :: r2 <:+ skipWs rest := ihP heq2
              exact ((List.suffix_cons '}' r2).trans
                (h1.trans (skipWs_suffix rest))).trans (List.suffix_cons c rest)
            · exact absurd h (by simp)
        · split at h
          · rename_i r2 heq
            simp only [Option.some.injEq, Prod.mk.injEq] at h
            rw [← h.2]
            have h1 : ']' :: r2 <:+ rest := heq ▸ skipWs_suffix rest
            exact ((List.suffix_cons ']' r2).trans h1).trans (List.suffix_cons c rest)
          · split at h
            · rename_i l2 r2 heq2
              simp only [Option.some.injEq, Prod.mk.injEq] at h
              rw [← h.2]
              have h1 : ']' :: r2 <:+ skipWs rest := ihI heq2
              exact ((List.suffix_cons ']' r2).trans
                (h1.trans (skipWs_suffix rest))).trans (List.suffix_cons c rest)
            · exact absurd h (by simp)
        · cases hps : parseStringBody (rest.length + 1) rest with
          | none => rw [hps] at h; exact absurd h (by simp)
          | some pr =>
            obtain ⟨s1, r1⟩ := pr
            rw [hps] at h
            simp only [Option.map_some, Option.some.injEq, Prod.mk.injEq] at h
            rw [← h.2]
            exact (parseStringBody_suffix _ hps).trans (List.suffix_cons c rest)
        · exact (parseTrue_suffix h).trans (List.suffix_cons c rest)
        · exact (parseFalse_suffix h).trans (List.suffix_cons c rest)
        · exact (parseNull_suffix h).trans (List.suffix_cons c rest)
        · cases hpn : parseNumber (c :: rest) with
          | none => rw [hpn] at h; exact absurd h (by simp)
          | some pr =>
            obtain ⟨m1, r1⟩ := pr
            rw [hpn] at h
            simp only [Option.map_some, Option.some.injEq, Prod.mk.injEq] at h
            rw [← h.2]
            exact parseNumber_suffix hpn
    · intro cs l r h
      rw [parseItems] at h
      split at h
      · exact absurd h (by simp)
      · rename_i v r1 heq1
        split at h
        · rename_i r2 heq2
          simp only [Option.some.injEq, Prod.mk.injEq] at h
          rw [← h.2]
          exact (heq2 ▸ skipWs_suffix r1).trans (ihV heq1)
        · rename_i r2 heq2
          split at h
          · rename_i vs r3 heq3
            simp only [Option.some.injEq, Prod.mk.injEq] at h
            rw [← h.2]
            have h1 : ']' :: r3 <:+ skipWs r2 := ihI heq3
            have h2 : skipWs r2 <:+ ',' :: r2 := (skipWs_suffix r2).trans (List.suffix_cons _ _)
            exact ((h1.trans h2).trans (heq2 ▸ skipWs_suffix r1)).trans (ihV heq1)
          · exact absurd h (by simp)
        · exact absurd h (by simp)
    · intro cs ps r h
      cases cs with
      | nil =>
        exact absurd h (by rw [show parsePairs (fuel + 1) [] = none from rfl]; simp)
      | cons c rest =>
        by_cases hc : c = '"'
        · subst hc
          rw [parsePairs] at h
          split at h
          · exact absurd h (by simp)
          · rename_i k r1 heq1
            split at h
            · rename_i r2 heq2
              split at h
              · exact absurd h (by simp)
              · rename_i v r3 heq3
                split at h
                · rename_i r4 heq4
                  simp only [Option.some.injEq, Prod.mk.injEq] at h
                  rw [← h.2]
                  have h1 : '}' :: r4 <:+ r3 := heq4 ▸ skipWs_suffix r3
                  have h2 : r3 <:+ skipWs r2 := ihV heq3
                  have h3 : skipWs r2 <:+ ':' :: r2 :=
                    (skipWs_suffix r2).trans (List.suffix_cons _ _)
                  have h4 : ':' :: r2 <:+ r1 := heq2 ▸ skipWs_suffix r1
                  have h5 : r1 <:+ rest := parseStringBody_suffix _ heq1
                  exact (((h1.trans h2).trans (h3.trans h4)).trans h5).trans
                    (List.suffix_cons _ _)
                · rename_i r4 heq4
                  split at h
                  · rename_i qs r5 heq5
                    simp only [Option.some.injEq, Prod.mk.injEq] at h
                    rw [← h.2]
                    have h1 : '}' :: r5 <:+ skipWs r4 := ihP heq5
                    have h2 : skipWs r4 <:+ ',' :: r4 :=
                      (skipWs_suffix r4).trans (List.suffix_cons _ _)
                    have h3 : ',' :: r4 <:+ r3 := heq4 ▸ skipWs_suffix r3
                    have h4 : r3 <:+ skipWs r2 := ihV heq3
                    have h5 : skipWs r2 <:+ ':' :: r2 :=
                      (skipWs_suffix r2).trans (List.suffix_cons _ _)
                    have h6 : ':' :: r2 <:+ r1 := heq2 ▸ skipWs_suffix r1
                    have h7 : r1 <:+ rest := parseStringBody_suffix _ heq1
                    exact ((((h1.trans h2).trans h3).trans h4).trans
                      ((h5.trans h6).trans h7)).trans (List.suffix_cons _ _)
                  · exact absurd h (by simp)
                · exact absurd h (by simp)
            · exact absurd h (by simp)
        · rw [parsePairs_non_quote hc] at h
          exact absurd h (by simp)

/-- A parse that produces an array consumed a leading `[` and everything
up to a closing `]` directly preceding the remainder. -/
theorem parseValue_arr_shape : ∀ {fuel : Nat} {cs : List Char} {l : JsonList} {r : List Char},
    parseValue fuel cs = some (.arr l, r) → (∃ t, cs = '[' :: t) ∧ ']' :: r <:+ cs := by
  intro fuel cs l r h
  cases fuel with
  | zero => exact absurd h (by rw [show parseValue 0 cs = none from rfl]; simp)
  | succ fuel =>
    cases cs with
    | nil => exact absurd h (by rw [show parseValue (fuel + 1) [] = none from rfl]; simp)
    | cons c rest =>
      rw [parseValue] at h
      split_ifs at h with h1 h2 h3 h4 h5 h6 h7
      · split at h
        · simp at h
        · split at h
          · simp at h
          · exact absurd h (by simp)
      · subst h2
        refine ⟨⟨rest, rfl⟩, ?_⟩
        split at h
        · rename_i r2 heq
          simp only [Option.some.injEq, Prod.mk.injEq] at h
          rw [← h.2]
          have hx : ']' :: r2 <:+ rest := heq ▸ skipWs_suffix rest
          exact hx.trans (List.suffix_cons _ _)
        · split at h
          · rename_i l2 r2 heq2
            simp only [Option.some.injEq, Prod.mk.injEq] at h
            rw [← h.2]
            exact (((parse_suffix fuel).2.1 heq2).trans (skipWs_suffix rest)).trans
              (List.suffix_cons _ _)
          · exact absurd h (by simp)
      · cases hps : parseStringBody (rest.length + 1) rest with
        | none => rw [hps] at h; exact absurd h (by simp)
        | some pr =>
          obtain ⟨s1, r1⟩ := pr
          rw [hps] at h
          simp at h
      · rw [parseTrue.eq_def] at h
        split at h
        · simp at h
        · exact absurd h (by simp)
      · rw [parseFalse.eq_def] at h
        split at h
        · simp at h
        · exact absurd h (by simp)
      · rw [parseNull.eq_def] at h
        split at h
        · simp at h
        · exact absurd h (by simp)
      · cases hpn : parseNumber (c :: rest) with
        | none => rw [hpn] at h; exact absurd h (by simp)
        | some pr =>
          obtain ⟨m1, r1⟩ := pr
          rw [hpn] at h
          simp at h

/-- If `json.loads` of a whitespace-stripped string produces an array, the
string starts with `[` and ends with `]`. -/
theorem loads_arr {s : List Char} {l : JsonList}
    (hh : ∀ c, s.head? = some c → isJsonWs c = false)
    (hl : ∀ c, s.getLast? = some c → isJsonWs c = false)
    (h : loads s = some (.arr l)) :
    s.head? = some '[' ∧ s.getLast? = some ']' := by
  rw [loads] at h
  have hss : skipWs s = s := by
    cases s with
    | nil => rfl
    | cons a t => exact skipWs_cons_of_not_ws (hh a rfl) t
  rw [hss] at h
  split at h
  · rename_i v r heq
    split at h
    · rename_i hre
      simp only [Option.some.injEq] at h
      subst h
      obtain ⟨⟨t, hts⟩, hsuf⟩ := parseValue_arr_shape heq
      constructor
      · rw [hts]
        rfl
      · obtain ⟨pre, hpre⟩ := hsuf
        cases r with
        | nil =>
          rw [← hpre, show pre ++ ']' :: ([] : List Char) = pre ++ [']'] from rfl]
          exact List.getLast?_concat _
        | cons d ds =>
          have hall : ∀ x ∈ d :: ds, isJsonWs x = true := by
            intro x hx
            exact List.dropWhile_eq_nil_iff.mp hre x hx
          have hne : (d :: ds) ≠ [] := by simp
          have hg : (d :: ds).getLast? = some ((d :: ds).getLast hne) :=
            List.getLast?_eq_getLast _ hne
          have hmem := List.getLast_mem hne
          have hlast : s.getLast? = some ((d :: ds).getLast hne) := by
            rw [← hpre, List.getLast?_append, List.getLast?_cons_cons, hg]
            rfl
          have hws := hl _ hlast
          rw [hall _ hmem] at hws
          exact Bool.noConfusion hws
    · exact absurd h (by simp)
  · exact absurd h (by simp)

/-! ### Structure-check helpers -/

/-- No intro-text pattern matches content that starts with `[`: every
pattern is anchored at the start and begins with a letter. -/
theorem introHit_lbracket (t : List Char) : introHit ('[' :: t) = false := rfl

/-- On a mapping, the missing-fields comprehension filters the required
fields by key membership and never raises. -/
theorem missingAux_obj (fields : JsonPairs) :
    ∀ fs : List (List Char),
      missingAux (.obj fields) fs = .ok (fs.filter (fun f => !fields.hasKey f)) := by
  intro fs
  induction fs with
  | nil => rfl
  | cons f fs ih =>
    have hpc : pyContains (.obj fields) f = .ok (fields.hasKey f) := rfl
    rw [missingAux, hpc]
    cases hk : fields.hasKey f with
    | false =>
      dsimp only
      rw [ih]
      simp [List.filter_cons, hk]
    | true =>
      dsimp only
      rw [ih]
      simp [List.filter_cons, hk]

/-- The missing fields are reported as a sublist of the required-field
list, i.e. in specification order. -/
theorem missingAux_sublist (first : Json) :
    ∀ (fs : List (List Char)) {m : List (List Char)},
      missingAux first fs = .ok m → List.Sublist m fs := by
  intro fs
  induction fs with
  | nil =>
    intro m h
    simp only [missingAux, Except.ok.injEq] at h
    rw [← h]
  | cons f fs ih =>
    intro m h
    rw [missingAux] at h
    split at h
    · exact absurd h (by simp)
    · exact (ih h).cons f
    · split at h
      · exact absurd h (by simp)
      · rename_i rest hm
        simp only [Except.ok.injEq] at h
        rw [← h]
        exact (ih hm).cons₂ f

/-- A `TypeError` escaping the membership test carries one of the three
fixed CPython messages. -/
theorem missingAux_error (first : Json) :
    ∀ (fs : List (List Char)) {e : String}, missingAux first fs = .error e →
      e = "argument of type \x27int\x27 is not iterable" ∨
      e = "argument of type \x27bool\x27 is not iterable" ∨
      e = "argument of type \x27NoneType\x27 is not iterable" := by
  intro fs
  induction fs with
  | nil =>
    intro e h
    exact absurd h (by simp [missingAux])
  | cons f fs ih =>
    intro e h
    rw [missingAux] at h
    split at h
    · rename_i e2 hpc
      simp only [Except.error.injEq] at h
      subst h
      cases first with
      | obj ps => exact absurd hpc (by simp [pyContains])
      | str s => exact absurd hpc (by simp [pyContains])
      | arr l => exact absurd hpc (by simp [pyContains])
      | num n =>
        left
        have := hpc
        simp only [pyContains, Except.error.injEq] at this
        exact this.symm
      | bool b =>
        right; left
        have := hpc
        simp only [pyContains, Except.error.injEq] at this
        exact this.symm
      | null =>
        right; right
        have := hpc
        simp only [pyContains, Except.error.injEq] at this
        exact this.symm
    · exact ih h
    · split at h
      · rename_i e2 hm
        simp only [Except.error.injEq] at h
        subst h
        exact ih hm
      · exact absurd h (by simp)

/-- The missing-fields message never equals the intro-text message: the
two start with different characters. -/
theorem missing_msg_ne_intro (x : String) :
    ("Missing required fields in recipe: " ++ x) ≠
      "Invalid response format: Response contains introductory text" := by
  intro heq
  have h2 := congrArg (fun s => s.data.head?) heq
  dsimp only at h2
  have h3 : ("Missing required fields in recipe: " ++ x).data.head? = some 'M' := by
    rw [show ("Missing required fields in recipe: " ++ x).data =
        'M' :: (("issing required fields in recipe: ").data ++ x.data) from rfl]
    rfl
  rw [h3,
    show ("Invalid response format: Response contains introductory text" : String).data.head? =
      some 'I' from rfl] at h2
  exact absurd h2 (by decide)

/-- The attribute-error message from the debug print never equals the
intro-text message: the two start with different characters. -/
theorem attr_msg_ne_intro (x : String) :
    ("\x27" ++ x ++ "\x27 object has no attribute \x27keys\x27") ≠
      "Invalid response format: Response contains introductory text" := by
  intro heq
  have h2 := congrArg (fun s => s.data.head?) heq
  dsimp only at h2
  have h3 : ("\x27" ++ x ++ "\x27 object has no attribute \x27keys\x27").data.head? =
      some '\x27' := by
    rw [show ("\x27" ++ x ++ "\x27 object has no attribute \x27keys\x27").data =
        '\x27' :: (x.data ++ ("\x27 object has no attribute \x27keys\x27").data) from rfl]
    rfl
  rw [h3,
    show ("Invalid response format: Response contains introductory text" : String).data.head? =
      some 'I' from rfl] at h2
  exact absurd h2 (by decide)

/-- Claim C2: every outcome produced by the validator has a checkpoint map
that is a prefix of the fixed order (array_format, markdown_removed,
intro_text_removed, json_parsed, structure_validated): whenever any
checkpoint is true, every earlier checkpoint is also true, on success and
failure outcomes alike. -/
theorem claim_C2 (content : List Char) :
    stepsPrefixOk (validate_json content).steps = true := by
  simp only [validate_json]
  repeat' split
  all_goals rfl

/-- Claim C8: aggregating a batch of zero outcomes fails (the empty
DataFrame has no columns, so the first column access raises the `KeyError`
that realizes the specification's `EmptyBatchError`). -/
theorem claim_C8 : update_visualizations [] = .error (.keyError "success") := rfl

/-- Claim C5 (amended): when the normalized content passes the bracket
check and contains one of the two literal fence patterns (three backticks
followed by `json` and a newline, or three backticks followed directly by
a newline), validation fails at the markdown-fence check: `array_format`
is true, `markdown_removed` and all later checkpoints are false, and the
error is the `ValueError` with the markdown message.  Fence markers with
any other language tag, or without a trailing newline, are not matched,
and content wrapped in a fence fails the earlier array-format check
instead. -/
theorem claim_C5 (content : List Char)
    (h1 : arrayFormatOk (normContent content) = true)
    (h2 : markdownHit (normContent content) = true) :
    validate_json content =
      { success := false, steps := ⟨true, false, false, false, false⟩,
        content_length := content.length, recipe_count := none,
        error_type := some "ValueError",
        error_message := some "Invalid response format: Response contains markdown code block" } := by
  simp only [validate_json, h1, h2, Bool.not_true, Bool.false_eq_true, if_false, if_true]

/-- Witness for claim C5 at the concrete input `"[```json\n]"`. -/
theorem claim_C5_witness :
    arrayFormatOk (normContent ("[```json\n]".toList)) = true ∧
    markdownHit (normContent ("[```json\n]".toList)) = true ∧
    validate_json ("[```json\n]".toList) =
      { success := false, steps := ⟨true, false, false, false, false⟩,
        content_length := 10, recipe_count := none,
        error_type := some "ValueError",
        error_message := some "Invalid response format: Response contains markdown code block" } :=
  ⟨rfl, rfl, claim_C5 _ rfl rfl⟩

/-- Counterexample to claim C5 as stated: the claim's own scenario, a JSON
array wrapped in a fenced code block, contains the fence pattern but does
not fail at the markdown-fence check — normalization leaves the
unparseable content unchanged and the array-format check fails first, with
`array_format` false and the array-format error message. -/
theorem claim_C5_counterexample :
    containsSeq ("```json\n".toList) ("```json\n[1, 2]\n```".toList) = true ∧
    validate_json ("```json\n[1, 2]\n```".toList) =
      { success := false, steps := ⟨false, false, false, false, false⟩,
        content_length := 18, recipe_count := none,
        error_type := some "ValueError",
        error_message := some "Response must be a JSON array (starts with [ and ends with ])" } :=
  ⟨rfl, rfl⟩

/-- Claim C6 (amended): on the input `"Here's your array: [1,2,3]"` the
validator fails at the array-format check (the content does not start with
a bracket, and normalization leaves it unchanged since it is not valid
JSON), so every checkpoint including `array_format` is false and the error
is the array-format `ValueError`, not the intro-text one. -/
theorem claim_C6 :
    validate_json ("Here\x27s your array: [1,2,3]".toList) =
      { success := false, steps := ⟨false, false, false, false, false⟩,
        content_length := 26, recipe_count := none,
        error_type := some "ValueError",
        error_message := some "Response must be a JSON array (starts with [ and ends with ])" } := rfl

/-- Counterexample to claim C6 as stated: the claim asserts
`array_format = true` on this input; the code produces `false`. -/
theorem claim_C6_counterexample :
    (validate_json ("Here\x27s your array: [1,2,3]".toList)).steps.array_format = false := rfl

/-- Claim C7 (amended): on success outcomes `content_length` is the length
of the normalized stripped content the checks ran on; on failure outcomes
it is the length of the original request content (src/main.py:231), which
can differ from the checked content. -/
theorem claim_C7 (content : List Char) :
    ((validate_json content).success = true →
      (validate_json content).content_length = (normContent content).length) ∧
    ((validate_json content).success = false →
      (validate_json content).content_length = content.length) := by
  simp only [validate_json]
  repeat' split
  all_goals simp

/-- Witness for claim C7 at the concrete input `"  x"` (a failure). -/
theorem claim_C7_witness :
    (validate_json ("  x".toList)).content_length = ("  x".toList).length :=
  (claim_C7 ("  x".toList)).2 rfl

/-- Counterexample to claim C7 as stated: on the failed outcome for
`"  x"` the recorded `content_length` is 3, the length of the original
content, while the content the checks were performed on (the stripped,
normalization-unchanged `"x"`) has length 1. -/
theorem claim_C7_counterexample :
    (validate_json ("  x".toList)).success = false ∧
    (validate_json ("  x".toList)).content_length = 3 ∧
    (normContent ("  x".toList)).length = 1 :=
  ⟨rfl, rfl, rfl⟩

/-- Claim C9 (amended): for a non-empty batch, the error histogram counts
`error_type` over the outcomes with `success = false` (each occurring kind
appears with its count), but the zero-count entries for the fixed known
kinds are emitted only when the batch contains no recorded failure kind at
all; when any failure kind occurs, kinds absent from the batch get no
entry. -/
theorem claim_C9 (l : List VOutcome) (h : l ≠ []) :
    ∃ m, update_visualizations l = .ok m ∧
      (∀ k, k ∈ failKinds l →
        List.lookup k m.error_histogram = some ((failKinds l).count k)) ∧
      (failKinds l = [] →
        m.error_histogram = knownErrorKinds.map (fun k => (k, 0))) := by
  have hne : l.isEmpty = false := by
    cases l with
    | nil => exact absurd rfl h
    | cons a as => rfl
  simp only [update_visualizations, hne, Bool.false_eq_true, if_false]
  refine ⟨_, rfl, ?_, ?_⟩
  · intro k hk
    exact lookup_errorHistogram l k hk
  · intro hempty
    simp [errorHistogram, hempty]

/-- Witness for claim C9 on a concrete one-element all-success batch. -/
theorem claim_C9_witness :
    ∃ m, update_visualizations [⟨true, ⟨true, true, true, true, true⟩, 5, none⟩] = .ok m ∧
      (∀ k, k ∈ failKinds [⟨true, ⟨true, true, true, true, true⟩, 5, none⟩] →
        List.lookup k m.error_histogram =
          some ((failKinds [⟨true, ⟨true, true, true, true, true⟩, 5, none⟩]).count k)) ∧
      (failKinds [⟨true, ⟨true, true, true, true, true⟩, 5, none⟩] = [] →
        m.error_histogram = knownErrorKinds.map (fun k => (k, 0))) :=
  claim_C9 _ (List.cons_ne_nil _ _)

/-- Counterexample to claim C9 as stated: a batch with one failed outcome
of kind `ValueError` yields a histogram with entries only for `ValueError`
and the total; the known kind `JSONDecodeError` gets no zero-count entry. -/
theorem claim_C9_counterexample :
    (update_visualizations [⟨false, ⟨true, false, false, false, false⟩, 5, some "ValueError"⟩]).map
        (fun m => m.error_histogram) = .ok [("ValueError", 1), ("total_errors", 1)] ∧
    List.lookup "JSONDecodeError" [("ValueError", (1 : Nat)), ("total_errors", 1)] = none := by
  exact ⟨by rfl, by rfl⟩

/-- Counterexample to claim C4 as stated: this content parses as a
non-empty JSON array whose first element is a string, not a mapping
containing the six required keys, yet validation succeeds, because
Python's `field in first_recipe` is a substring test on strings and every
required field name is a substring of the first element. -/
theorem claim_C4_counterexample :
    loads (pyStrip ("[\"name prepTime cookTime totalTime ingredients steps\"]".toList)) =
      some (.arr (.cons (.str ("name prepTime cookTime totalTime ingredients steps".toList)) .nil)) ∧
    (validate_json ("[\"name prepTime cookTime totalTime ingredients steps\"]".toList)).success = true ∧
    (validate_json ("[\"name prepTime cookTime totalTime ingredients steps\"]".toList)).error_message
      = none :=
  ⟨rfl, rfl, rfl⟩

/-- Claim C1: for every input whose stripped content is a valid JSON array
(surrounding whitespace allowed) whose first element is a mapping
containing all six required keys, validation succeeds: `success=true`, all
five checkpoints true, and `recipe_count` equal to the length of the
parsed array. -/
theorem claim_C1 (content : List Char) (fields : JsonPairs) (restEls : JsonList)
    (hparse : loads (pyStrip content) = some (.arr (.cons (.obj fields) restEls)))
    (hkeys : requiredFields.all (fun f => fields.hasKey f) = true) :
    (validate_json content).success = true ∧
    (validate_json content).steps = ⟨true, true, true, true, true⟩ ∧
    (validate_json content).recipe_count =
      some (JsonList.length (.cons (.obj fields) restEls)) := by
  have hnc : normContent content = serValue 0 (.arr (.cons (.obj fields) restEls)) := by
    rw [normContent, normalize_json, hparse]
  have hafo : arrayFormatOk (normContent content) = true := by
    rw [hnc, arrayFormatOk, serValue_arr_last 0 (JsonList.cons (.obj fields) restEls),
      show (serValue 0 (.arr (.cons (.obj fields) restEls))).head? = some '[' from rfl]
    rfl
  have hmd : markdownHit (normContent content) = false := by
    rw [hnc]
    exact markdownHit_serValue 0 _
  have hint : introHit (normContent content) = false := by
    rw [hnc]
    exact introHit_lbracket _
  have hld : loads (normContent content) = some (.arr (.cons (.obj fields) restEls)) := by
    rw [hnc]
    exact loads_serValue _
  have hmiss : missingAux (.obj fields) requiredFields = .ok [] := by
    rw [missingAux_obj]
    have hall : ∀ f ∈ requiredFields, ¬((!fields.hasKey f) = true) := by
      intro f hf
      have hk := List.all_eq_true.mp hkeys f hf
      simp at hk
      simp [hk]
    rw [List.filter_eq_nil_iff.mpr hall]
  simp only [validate_json, hafo, hmd, hint, hld, hmiss, Bool.not_true]
  exact ⟨rfl, rfl, rfl⟩

/-- Witness for claim C1: a concrete recipe array with all six required
keys validates successfully with recipe count 1. -/
theorem claim_C1_witness :
    (validate_json (("[" ++
      "\x7b\"name\": 1, \"prepTime\": 2, \"cookTime\": 3, \"totalTime\": 4, " ++
      "\"ingredients\": 5, \"steps\": 6\x7d" ++ "]").toList)).success = true ∧
    (validate_json (("[" ++
      "\x7b\"name\": 1, \"prepTime\": 2, \"cookTime\": 3, \"totalTime\": 4, " ++
      "\"ingredients\": 5, \"steps\": 6\x7d" ++ "]").toList)).steps =
      ⟨true, true, true, true, true⟩ ∧
    (validate_json (("[" ++
      "\x7b\"name\": 1, \"prepTime\": 2, \"cookTime\": 3, \"totalTime\": 4, " ++
      "\"ingredients\": 5, \"steps\": 6\x7d" ++ "]").toList)).recipe_count =
      some (JsonList.length (.cons
        (.obj (.cons ("name".toList) (.num 1)
          (.cons ("prepTime".toList) (.num 2)
            (.cons ("cookTime".toList) (.num 3)
              (.cons ("totalTime".toList) (.num 4)
                (.cons ("ingredients".toList) (.num 5)
                  (.cons ("steps".toList) (.num 6) .nil))))))) .nil)) :=
  claim_C1 _
    (.cons ("name".toList) (.num 1)
      (.cons ("prepTime".toList) (.num 2)
        (.cons ("cookTime".toList) (.num 3)
          (.cons ("totalTime".toList) (.num 4)
            (.cons ("ingredients".toList) (.num 5)
              (.cons ("steps".toList) (.num 6) .nil))))))
    .nil rfl (by decide)

/-- Claim C3: whenever the stripped content does not start with `[` or
does not end with `]`, validation fails with every checkpoint false. -/
theorem claim_C3 (content : List Char)
    (h : arrayFormatOk (pyStrip content) = false) :
    (validate_json content).success = false ∧
    (validate_json content).steps = ⟨false, false, false, false, false⟩ := by
  have hnonarr : ∀ v : Json, (∀ l2, v ≠ Json.arr l2) →
      arrayFormatOk (serValue 0 v) = false := by
    intro v hv
    obtain ⟨c, t, hct, hcne⟩ := serValue_head_ne_lbracket 0 v hv
    rw [arrayFormatOk, hct]
    simp [hcne]
  have hafo : arrayFormatOk (normContent content) = false := by
    rw [normContent, normalize_json]
    cases hld : loads (pyStrip content) with
    | none => exact h
    | some v =>
      cases v with
      | arr l =>
        exfalso
        have hh : ∀ c, (pyStrip content).head? = some c → isJsonWs c = false := by
          intro c hc
          have hp := pyStrip_head hc
          cases hjw : isJsonWs c with
          | false => rfl
          | true => exact absurd (pyIsSpace_of_isJsonWs hjw) (by rw [hp]; simp)
        have hl2 : ∀ c, (pyStrip content).getLast? = some c → isJsonWs c = false := by
          intro c hc
          have hp := pyStrip_getLast hc
          cases hjw : isJsonWs c with
          | false => rfl
          | true => exact absurd (pyIsSpace_of_isJsonWs hjw) (by rw [hp]; simp)
        obtain ⟨h1, h2⟩ := loads_arr hh hl2 hld
        rw [arrayFormatOk, h1, h2] at h
        simp at h
      | null => exact hnonarr _ (fun l2 h2 => Json.noConfusion h2)
      | bool b => exact hnonarr _ (fun l2 h2 => Json.noConfusion h2)
      | num n => exact hnonarr _ (fun l2 h2 => Json.noConfusion h2)
      | str s => exact hnonarr _ (fun l2 h2 => Json.noConfusion h2)
      | obj ps => exact hnonarr _ (fun l2 h2 => Json.noConfusion h2)
  simp only [validate_json, hafo, Bool.not_false, if_true]
  exact ⟨trivial, trivial⟩

/-- Witness for claim C3: content whose stripped form starts with `h`
fails validation with all checkpoints false. -/
theorem claim_C3_witness :
    arrayFormatOk (pyStrip ("hello".toList)) = false ∧
    (validate_json ("hello".toList)).success = false ∧
    (validate_json ("hello".toList)).steps = ⟨false, false, false, false, false⟩ := by
  refine ⟨rfl, ?_⟩
  exact claim_C3 _ rfl

/-- Claim C4 (amended): when the membership test on the parsed array's
first element completes and finds missing required keys, the failure
depends on the first element's type: a mapping fails with the `ValueError`
listing the missing keys comma-joined in required-field order (a sublist
of the specification-order list); a string or list first element instead
fails with an `AttributeError` from the debug print
`list(first_recipe.keys())`, reporting no fields. -/
theorem claim_C4 (content : List Char) (first : Json) (restEls : JsonList)
    (missing : List (List Char))
    (hparse : loads (pyStrip content) = some (.arr (.cons first restEls)))
    (hmiss : missingAux first requiredFields = .ok missing)
    (hne : missing ≠ []) :
    (validate_json content).success = false ∧
    (validate_json content).steps = ⟨true, true, true, true, false⟩ ∧
    (∀ fields, first = .obj fields →
      (validate_json content).error_type = some "ValueError" ∧
      (validate_json content).error_message =
        some ("Missing required fields in recipe: " ++ joinFields missing) ∧
      List.Sublist missing requiredFields) ∧
    (∀ s, first = .str s →
      (validate_json content).error_type = some "AttributeError" ∧
      (validate_json content).error_message =
        some "\x27str\x27 object has no attribute \x27keys\x27") ∧
    (∀ l, first = .arr l →
      (validate_json content).error_type = some "AttributeError" ∧
      (validate_json content).error_message =
        some "\x27list\x27 object has no attribute \x27keys\x27") := by
  have hnc : normContent content = serValue 0 (.arr (.cons first restEls)) := by
    rw [normContent, normalize_json, hparse]
  have hafo : arrayFormatOk (normContent content) = true := by
    rw [hnc, arrayFormatOk, serValue_arr_last 0 (JsonList.cons first restEls),
      show (serValue 0 (.arr (.cons first restEls))).head? = some '[' from rfl]
    rfl
  have hmd : markdownHit (normContent content) = false := by
    rw [hnc]
    exact markdownHit_serValue 0 _
  have hint : introHit (normContent content) = false := by
    rw [hnc]
    exact introHit_lbracket _
  have hld : loads (normContent content) = some (.arr (.cons first restEls)) := by
    rw [hnc]
    exact loads_serValue _
  cases missing with
  | nil => exact absurd rfl hne
  | cons m ms =>
    simp only [validate_json, hafo, hmd, hint, hld, hmiss, Bool.not_true]
    refine ⟨?_, ?_, ?_, ?_, ?_⟩
    · cases first <;> rfl
    · cases first <;> rfl
    · intro fields heq
      subst heq
      exact ⟨rfl, rfl, missingAux_sublist _ _ hmiss⟩
    · intro s heq
      subst heq
      exact ⟨rfl, rfl⟩
    · intro l heq
      subst heq
      exact ⟨rfl, rfl⟩

/-- Witness for claim C4: the sample input whose first element is the
string `not` has all six required fields missing, and fails with the
`AttributeError` from the debug print, reporting no fields. -/
theorem claim_C4_witness :
    (validate_json ("[\"not\", \"a\", \"recipe\"]".toList)).success = false ∧
    (validate_json ("[\"not\", \"a\", \"recipe\"]".toList)).steps =
      ⟨true, true, true, true, false⟩ ∧
    (validate_json ("[\"not\", \"a\", \"recipe\"]".toList)).error_type =
      some "AttributeError" ∧
    (validate_json ("[\"not\", \"a\", \"recipe\"]".toList)).error_message =
      some "\x27str\x27 object has no attribute \x27keys\x27" := by
  have h := claim_C4 ("[\"not\", \"a\", \"recipe\"]".toList) (.str ("not".toList))
    (.cons (.str ("a".toList)) (.cons (.str ("recipe".toList)) .nil))
    requiredFields rfl rfl (by decide)
  exact ⟨h.1, h.2.1, (h.2.2.2.1 _ rfl).1, (h.2.2.2.1 _ rfl).2⟩

/-- Claim C10: once the array-format check has passed the content starts
with `[`, so no start-anchored intro-text pattern can match: every outcome
with `markdown_removed=true` also has `intro_text_removed=true`, and no
outcome carries the introductory-text failure message. -/
theorem claim_C10 (content : List Char) :
    ((validate_json content).steps.markdown_removed = true →
      (validate_json content).steps.intro_text_removed = true) ∧
    (validate_json content).error_message ≠
      some "Invalid response format: Response contains introductory text" := by
  have hintro : arrayFormatOk (normContent content) = true →
      introHit (normContent content) = false := by
    intro hok
    rw [arrayFormatOk, Bool.and_eq_true] at hok
    obtain ⟨h1, _⟩ := hok
    rw [decide_eq_true_eq] at h1
    cases hcs : normContent content with
    | nil => rw [hcs] at h1; simp at h1
    | cons a t =>
      rw [hcs, List.head?_cons, Option.some.injEq] at h1
      rw [h1]
      exact introHit_lbracket t
  simp only [validate_json]
  split
  · exact ⟨by simp, by simp⟩
  · split
    · exact ⟨by simp, by simp⟩
    · split
      · rename_i hc1 hc2 hc3
        exfalso
        have ha : arrayFormatOk (normContent content) = true := by
          rcases Bool.eq_false_or_eq_true (arrayFormatOk (normContent content)) with ht | hf
          · exact ht
          · exact absurd (by rw [hf]; rfl) hc1
        have hfalse := hintro ha
        rw [hfalse] at hc3
        exact Bool.noConfusion hc3
      · split
        · exact ⟨fun hx => rfl, by simp⟩
        · split
          · exact ⟨fun hx => rfl, by simp⟩
          · split
            · rename_i e heq
              refine ⟨fun hx => rfl, ?_⟩
              intro hmsg
              simp only [Option.some.injEq] at hmsg
              rcases missingAux_error _ _ heq with h3 | h3 | h3 <;> rw [h3] at hmsg <;>
                exact absurd hmsg (by decide)
            · exact ⟨fun hx => rfl, by simp⟩
            · split
              · refine ⟨fun hx => rfl, ?_⟩
                intro hmsg
                simp only [Option.some.injEq] at hmsg
                exact missing_msg_ne_intro _ hmsg
              · refine ⟨fun hx => rfl, ?_⟩
                intro hmsg
                simp only [Option.some.injEq] at hmsg
                exact attr_msg_ne_intro _ hmsg
          · exact ⟨fun hx => rfl, by simp⟩

/-- Witness for claim C10: a concrete input that passes the markdown check
also passes the intro-text check, and its failure message is not the
introductory-text message. -/
theorem claim_C10_witness :
    (validate_json ("[1]".toList)).steps.markdown_removed = true ∧
    (validate_json ("[1]".toList)).steps.intro_text_removed = true ∧
    (validate_json ("[1]".toList)).error_message ≠
      some "Invalid response format: Response contains introductory text" :=
  ⟨rfl, (claim_C10 ("[1]".toList)).1 rfl, (claim_C10 ("[1]".toList)).2⟩
